import Mathlib

/-!
# A shallow embedding of the MaoenD/Netpbm library

This file embeds the Go sources of the Netpbm repository (pbm.go, pgm.go,
ppm.go and the three unnamed parts, which contain a second variant of each
image kind) into Lean 4 and proves or refutes the frozen claims about them.

Modelling conventions:

* A file/stream is a `List Nat` of byte values.  `bufio` reads
  (`ReadString '\n'`, `ReadByte`, `ReadRune` over ASCII data, `Read` into a
  full buffer) are modelled as pure functions on that list.
* Go `int` is `Int`; Go `uint8` values are `Nat` together with the
  truncating conversion `toUInt8` (low 8 bits, as Go's `uint8(x)`).
* Fallible code returns `Option`: a Go runtime panic (slice index out of
  range, `make` with negative length, integer division by zero) and a
  returned decode error are both modelled as `none`.
* `fmt.Sscanf`/`strconv.Atoi` of a `%d` verb are modelled by `parseInt`
  (optional sign followed by decimal digits).  Scanning into a `uint8`
  variable checks the range (as `fmt` does); converting with `uint8(x)`
  truncates.
* `float64` arithmetic in `ppm.go`'s `DrawLine` is kept abstract (the code
  is parameterised over the error-accumulator operations), and instantiated
  with `ℚ` where a concrete run is needed; the instantiation is bit-exact
  for the dyadic slopes used in the concrete inputs below.  `math.Abs`
  comparisons of `float64`-converted deltas are modelled as exact integer
  comparisons (exact for |delta| < 2^53).
-/

namespace Netpbm

/-! ## Bytes, whitespace, lines and tokens -/

/-- Whitespace bytes recognised by `strings.Fields` / `strings.TrimSpace`
(space, tab, newline, carriage return suffice for the byte streams here). -/
def isSpaceByte (b : Nat) : Bool :=
  b = 32 || b = 9 || b = 10 || b = 13

/-- `bufio.Reader.ReadString('\n')`: the returned segment includes the
delimiter; reaching end of input without a delimiter is the error case. -/
def readLine (s : List Nat) : Option (List Nat × List Nat) :=
  match s with
  | [] => none
  | b :: t =>
    if b = 10 then some ([10], t)
    else match readLine t with
      | some (l, r) => some (b :: l, r)
      | none => none

/-- `strings.TrimSpace` on a byte string. -/
def trimSpace (s : List Nat) : List Nat :=
  ((s.dropWhile isSpaceByte).reverse.dropWhile isSpaceByte).reverse

/-- Accumulator form of `strings.Fields` (`acc` holds the current token,
reversed). -/
def fieldsAux (acc : List Nat) : List Nat → List (List Nat)
  | [] => if acc.isEmpty then [] else [acc.reverse]
  | b :: t =>
    if isSpaceByte b then
      if acc.isEmpty then fieldsAux [] t else acc.reverse :: fieldsAux [] t
    else fieldsAux (b :: acc) t

/-- `strings.Fields`: split around maximal runs of whitespace. -/
def fieldsGo (s : List Nat) : List (List Nat) := fieldsAux [] s

/-- Parse a nonempty all-digits token as a natural number. -/
def parseNatDigits (s : List Nat) : Option Nat :=
  match s with
  | [] => none
  | _ =>
    s.foldl (fun acc b =>
      acc.bind (fun n => if 48 ≤ b ∧ b ≤ 57 then some (n * 10 + (b - 48)) else none))
      (some 0)

/-- `strconv.Atoi` / a `%d` verb of `fmt.Sscanf` on one token: an optional
sign followed by decimal digits. -/
def parseInt (s : List Nat) : Option Int :=
  match s with
  | 45 :: t => (parseNatDigits t).map (fun n => -(n : Int))
  | 43 :: t => (parseNatDigits t).map (fun n => (n : Int))
  | _ => (parseNatDigits s).map (fun n => (n : Int))

/-- Decimal digits, least significant first, with explicit fuel (the
value itself is always enough fuel). -/
def natToRevDigitsAux : Nat → Nat → List Nat
  | 0, _ => []
  | _ + 1, 0 => []
  | fuel + 1, n + 1 => ((n + 1) % 10 + 48) :: natToRevDigitsAux fuel ((n + 1) / 10)

/-- Decimal digits of a positive number, least significant first. -/
def natToRevDigits (n : Nat) : List Nat := natToRevDigitsAux n n

/-- `fmt` rendering of a natural number in decimal. -/
def natToBytes (n : Nat) : List Nat :=
  if n = 0 then [48] else (natToRevDigits n).reverse

/-- `fmt` rendering (`%d`) of a Go `int`. -/
def intToBytes (i : Int) : List Nat :=
  if i < 0 then 45 :: natToBytes (-i).toNat else natToBytes i.toNat

/-- Go's `uint8(x)` conversion of an `int`: the low 8 bits. -/
def toUInt8 (i : Int) : Nat := (i % 256).toNat

/-! ## The PBM image kind (pbm.go, identical in src/unnamed/part_000) -/

/-- The magic-number byte strings `"P1"` … `"P6"`. -/
def magicP1 : List Nat := [80, 49]

def magicP2 : List Nat := [80, 50]

def magicP3 : List Nat := [80, 51]

def magicP4 : List Nat := [80, 52]

def magicP5 : List Nat := [80, 53]

def magicP6 : List Nat := [80, 54]

/-- `type PBM struct { data [][]bool; width, height int; magicNumber string }` -/
structure PBM where
  data : List (List Bool)
  width : Int
  height : Int
  magicNumber : List Nat
deriving DecidableEq, Repr

/-- The dimensions loop of `ReadPBM`: skip `#`-comment lines until a line
with exactly two fields appears, and `strconv.Atoi` both.  The Go loop is
bounded only by the stream, so the model carries fuel (one unit per line,
`stream.length + 1` at the call site is always enough). -/
def readDimsLoop : Nat → List Nat → Option (Int × Int × List Nat)
  | 0, _ => none
  | fuel + 1, s => do
    let (line, rest) ← readLine s
    if line.headD 0 = 35 then readDimsLoop fuel rest
    else
      match fieldsGo line with
      | [a, b] => do
        let w ← parseInt a
        let h ← parseInt b
        some (w, h, rest)
      | _ => readDimsLoop fuel rest

/-- The inner P1 scan: `ReadRune` until a `'0'` or `'1'` appears. -/
def readBitP1 : List Nat → Option (Bool × List Nat)
  | [] => none
  | b :: t =>
    if b = 48 then some (false, t)
    else if b = 49 then some (true, t)
    else readBitP1 t

/-- One P1 row: `width` scans of `readBitP1`. -/
def readP1Row : Nat → List Nat → Option (List Bool × List Nat)
  | 0, s => some ([], s)
  | w + 1, s => do
    let (px, s1) ← readBitP1 s
    let (row, s2) ← readP1Row w s1
    some (px :: row, s2)

/-- `height` P1 rows of `width` pixels each. -/
def readP1Rows : Nat → Nat → List Nat → Option (List (List Bool) × List Nat)
  | 0, _, s => some ([], s)
  | h + 1, w, s => do
    let (row, s1) ← readP1Row w s
    let (rows, s2) ← readP1Rows h w s1
    some (row :: rows, s2)

/-- MSB-first bits of one byte: bit `j` of the result is
`byteVal & (1 << (7-j)) != 0`, as in the P4 inner loop. -/
def unpackByte (b : Nat) : List Bool :=
  [b.testBit 7, b.testBit 6, b.testBit 5, b.testBit 4,
   b.testBit 3, b.testBit 2, b.testBit 1, b.testBit 0]

/-- One P4 row (the argument counts the pixels left to read).  Each
`ReadByte` yields the next 8 pixels `x+bit < width`; `io.EOF` is tolerated
only on the last row's final byte (`y == height-1 && x >= width-8`), which
leaves the remaining pixels at their zero value. -/
def readP4Row (isLast : Bool) : Nat → List Nat → Option (List Bool × List Nat)
  | 0, s => some ([], s)
  | w + 1, [] => if isLast ∧ w + 1 ≤ 8 then some (List.replicate (w + 1) false, []) else none
  | w + 9, b :: t =>
    (readP4Row isLast (w + 1) t).map (fun rs => ((unpackByte b).take 8 ++ rs.1, rs.2))
  | w + 1, b :: t => some ((unpackByte b).take (w + 1), t)

/-- The P4 row loop; the EOF tolerance applies only when one row remains. -/
def readP4Rows : Nat → Nat → List Nat → Option (List (List Bool) × List Nat)
  | 0, _, s => some ([], s)
  | h + 1, w, s => do
    let (row, s1) ← readP4Row (h = 0) w s
    let (rows, s2) ← readP4Rows h w s1
    some (row :: rows, s2)

/-- `make([][]T, height)` followed by `make([]T, width)` per row: a Go
`make` with negative length panics, so the allocation fails for negative
`height`, and for negative `width` whenever at least one row is allocated. -/
def allocGrid (width height : Int) : Option Unit :=
  if height < 0 then none
  else if 0 < height ∧ width < 0 then none
  else some ()

/-- `ReadPBM` (pbm.go lines 19–105): magic-number line, comment-skipping
dimensions loop (no positivity check), then the P1 rune scan or the P4
byte unpacking. -/
def readPBM (s : List Nat) : Option PBM := do
  let (line, s1) ← readLine s
  let magic := trimSpace line
  let (w, h, s2) ← readDimsLoop (s1.length + 1) s1
  let _ ← allocGrid w h
  if magic = magicP1 then do
    let (rows, _) ← readP1Rows h.toNat w.toNat s2
    some ⟨rows, w, h, magic⟩
  else if magic = magicP4 then do
    let (rows, _) ← readP4Rows h.toNat w.toNat s2
    some ⟨rows, w, h, magic⟩
  else none

/-- One packed byte of a P4 row: the Go loop `row[byteIndex] |= 1 << (7-bitIndex)`
accumulates, for each set pixel of the 8-pixel chunk, the weight `2^(7-j)`
(`j` the position within the chunk); bits past the row are left zero. -/
def packByte : List Bool → Nat → Nat
  | [], _ => 0
  | px :: g, j => (if px then 2 ^ (7 - j) else 0) + packByte g (j + 1)

/-- A P4 row packed into `ceil(width/8)` bytes: a fresh zero byte is
appended every 8 pixels and filled MSB-first (a full 8-pixel chunk per
byte, the row's remainder in the final byte). -/
def packRow : List Bool → List Nat
  | [] => []
  | a :: b :: c :: d :: e :: f :: g :: h :: rest =>
    packByte [a, b, c, d, e, f, g, h] 0 :: packRow rest
  | l => [packByte l 0]

/-- The P1 text for one pixel: `"1 "` or `"0 "`. -/
def p1PixelBytes (px : Bool) : List Nat :=
  if px then [49, 32] else [48, 32]

/-- `PBM.Save` (pbm.go lines 123–179): magic line, `"%d %d\n"` dimensions,
then `"1 "`/`"0 "` tokens with a newline per row (P1) or packed bytes (P4).
Any other magic number writes just the header and still returns `nil`. -/
def PBM.save (m : PBM) : List Nat :=
  m.magicNumber ++ [10] ++ intToBytes m.width ++ [32] ++ intToBytes m.height ++ [10] ++
    (if m.magicNumber = magicP1 then
      m.data.flatMap (fun row => row.flatMap p1PixelBytes ++ [10])
    else if m.magicNumber = magicP4 then
      m.data.flatMap packRow
    else [])

/-- `PBM.At` (pbm.go lines 110–115): bounds-checked; out of bounds returns
`false`, in bounds indexes `data[y][x]` (a panic if the grid is ragged,
hence the `Option`). -/
def PBM.At (m : PBM) (x y : Int) : Option Bool :=
  if 0 ≤ x ∧ x < m.width ∧ 0 ≤ y ∧ y < m.height then
    (m.data.get? y.toNat).bind (fun row => row.get? x.toNat)
  else some false

/-- `PBM.Set` (pbm.go lines 117–121): bounds-checked; out of bounds is a
no-op, in bounds assigns `data[y][x] = value`. -/
def PBM.SetPx (m : PBM) (x y : Int) (value : Bool) : Option PBM :=
  if 0 ≤ x ∧ x < m.width ∧ 0 ≤ y ∧ y < m.height then
    (m.data.get? y.toNat).bind (fun row =>
      if x.toNat < row.length then
        some { m with data := m.data.set y.toNat (row.set x.toNat value) }
      else none)
  else some m

/-! ## The PGM image kind (pgm.go; src/unnamed/part_001 is the same code,
and pbm.go lines 209–445 hold a second variant of `ReadPGM`/`ToPBM`) -/

/-- `type PGM struct { data [][]uint8; width, height int; magicNumber string; max uint8 }` -/
structure PGM where
  data : List (List Nat)
  width : Int
  height : Int
  magicNumber : List Nat
  max : Nat
deriving DecidableEq, Repr

/-- `fmt.Sscanf(tok, "%d", &v)` for a `uint8` destination: `fmt` rejects
values outside the destination's range (unlike a `uint8(x)` conversion). -/
def parseUInt8 (tok : List Nat) : Option Nat :=
  (parseInt tok).bind (fun v => if 0 ≤ v ∧ v < 256 then some v.toNat else none)

/-- `fmt.Sscanf(line, "%d %d", &w, &h)`: the first two whitespace-separated
integer tokens; fewer is a scan error, extra input is ignored. -/
def scanTwoInts (line : List Nat) : Option (Int × Int) :=
  match fieldsGo line with
  | a :: b :: _ => do
    let w ← parseInt a
    let h ← parseInt b
    some (w, h)
  | _ => none

/-- `fmt.Sscanf(line, "%d", &v)`: the first integer token. -/
def scanOneInt (line : List Nat) : Option Int :=
  match fieldsGo line with
  | a :: _ => parseInt a
  | [] => none

/-- One P2 row: the row's line is split into fields; more fields than
`width` is an "index out of range" error, fewer leaves the remaining
zero-initialised pixels untouched; each field is scanned into a `uint8`. -/
def readP2Row (w : Nat) (line : List Nat) : Option (List Nat) := do
  let fs := fieldsGo line
  if w < fs.length then none
  else do
    let vals ← fs.mapM parseUInt8
    some (vals ++ List.replicate (w - fs.length) 0)

/-- The P2 row loop: one `ReadString('\n')` per row. -/
def readP2Rows : Nat → Nat → List Nat → Option (List (List Nat) × List Nat)
  | 0, _, s => some ([], s)
  | h + 1, w, s => do
    let (line, s1) ← readLine s
    let row ← readP2Row w line
    let (rows, s2) ← readP2Rows h w s1
    some (row :: rows, s2)

/-- The P5 row loop: `width` raw bytes per row; a short or empty read is an
"unexpected end of file" error. -/
def readP5Rows : Nat → Nat → List Nat → Option (List (List Nat) × List Nat)
  | 0, _, s => some ([], s)
  | h + 1, w, s =>
    if s.length < w then none
    else do
      let (rows, s2) ← readP5Rows h w (s.drop w)
      some (s.take w :: rows, s2)

/-- `ReadPGM` (pgm.go lines 18–115): magic line (must be `P2`/`P5`), one
dimensions line (`width <= 0 || height <= 0` is rejected), one max-value
line (scanned into an `int` and then truncated by the `uint8(max)`
conversion — no range check), then the P2 or P5 body. -/
def readPGM (s : List Nat) : Option PGM := do
  let (line, s1) ← readLine s
  let magic := trimSpace line
  if magic = magicP2 ∨ magic = magicP5 then do
    let (dline, s2) ← readLine s1
    let (w, h) ← scanTwoInts (trimSpace dline)
    if w ≤ 0 ∨ h ≤ 0 then none
    else do
      let (mline, s3) ← readLine s2
      let mx ← scanOneInt (trimSpace mline)
      let _ ← allocGrid w h
      if magic = magicP2 then do
        let (rows, _) ← readP2Rows h.toNat w.toNat s3
        some ⟨rows, w, h, magic, toUInt8 mx⟩
      else do
        let (rows, _) ← readP5Rows h.toNat w.toNat s3
        some ⟨rows, w, h, magic, toUInt8 mx⟩
  else none

/-- One P2 output row: `"%d"` per pixel, single spaces between pixels
(a space after each pixel except the last), one newline per row. -/
def joinSpace : List (List Nat) → List Nat
  | [] => []
  | [a] => a
  | a :: b :: t => a ++ 32 :: joinSpace (b :: t)

/-- `PGM.Save` with its `savePGM` helper (pgm.go lines 133–205): header
`magic\n`, `"%d %d\n"`, `max\n`, then ASCII rows (P2) or one raw byte per
pixel (P5).  A magic number other than `P2`/`P5` writes just the header. -/
def PGM.save (g : PGM) : List Nat :=
  g.magicNumber ++ [10] ++ intToBytes g.width ++ [32] ++ intToBytes g.height ++ [10] ++
    natToBytes g.max ++ [10] ++
    (if g.magicNumber = magicP2 then
      g.data.flatMap (fun row => joinSpace (row.map natToBytes) ++ [10])
    else if g.magicNumber = magicP5 then
      g.data.flatMap (fun row => row)
    else [])

/-- `PGM.At` (pgm.go lines 123–125): `return pgm.data[y][x]` with no bounds
check — out-of-range coordinates are a panic (`none`), not a zero value. -/
def PGM.At (g : PGM) (x y : Int) : Option Nat :=
  if 0 ≤ y ∧ 0 ≤ x then
    (g.data.get? y.toNat).bind (fun row => row.get? x.toNat)
  else none

/-- `PGM.Set` (pgm.go lines 128–130): `pgm.data[y][x] = value` with no
bounds check — out-of-range coordinates are a panic (`none`), not a no-op. -/
def PGM.SetPx (g : PGM) (x y : Int) (value : Nat) : Option PGM :=
  if 0 ≤ y ∧ 0 ≤ x then
    (g.data.get? y.toNat).bind (fun row =>
      if x.toNat < row.length then
        some { g with data := g.data.set y.toNat (row.set x.toNat value) }
      else none)
  else none

/-- `PGM.ToPBM` of pgm.go (lines 274–288): a pixel is on iff its value is
STRICTLY BELOW `uint8(max/2)`. -/
def PGM.toPBMv1 (g : PGM) : PBM :=
  ⟨g.data.map (fun row => row.map (fun v => v < g.max / 2)), g.width, g.height, magicP1⟩

/-- `PGM.ToPBM` of pbm.go lines 428–444 (the second PGM variant): a pixel
is on iff its value is STRICTLY ABOVE `max/2`. -/
def PGM.toPBMv2 (g : PGM) : PBM :=
  ⟨g.data.map (fun row => row.map (fun v => g.max / 2 < v)), g.width, g.height, magicP1⟩

/-- Modelled from the spec's words only (for comparison): the threshold
policy "value at or above `maxValue/2` (integer division) is on". -/
def PGM.toPBMspecGE (g : PGM) : PBM :=
  ⟨g.data.map (fun row => row.map (fun v => g.max / 2 ≤ v)), g.width, g.height, magicP1⟩

/-! ## The PPM image kind (ppm.go and the distinct variant in
src/unnamed/part_002) -/

/-- `type Pixel struct { R, G, B uint8 }` -/
structure Pixel where
  R : Nat
  G : Nat
  B : Nat
deriving DecidableEq, Repr

/-- `type Point struct { X, Y int }` -/
structure Point where
  X : Int
  Y : Int
deriving DecidableEq, Repr

/-- `type PPM struct { data [][]Pixel; width, height int; magicNumber string; max uint8 }` -/
structure PPM where
  data : List (List Pixel)
  width : Int
  height : Int
  magicNumber : List Nat
  max : Nat
deriving DecidableEq, Repr

/-- P3 pixels of one row (ppm.go): three `%d` tokens per pixel, each stored
through a truncating `uint8(..)` conversion; running out of fields is the
`x*3+2 >= len(fields)` bail-out (the code returns its stale `nil` error —
modelled as a plain decode failure). -/
def readP3Pixels : Nat → List (List Nat) → Option (List Pixel)
  | 0, _ => some []
  | w + 1, f1 :: f2 :: f3 :: fs => do
    let r ← parseInt f1
    let g ← parseInt f2
    let b ← parseInt f3
    let tl ← readP3Pixels w fs
    some (⟨toUInt8 r, toUInt8 g, toUInt8 b⟩ :: tl)
  | _ + 1, _ => none

/-- The P3 row loop (ppm.go): one line per row. -/
def readP3Rows : Nat → Nat → List Nat → Option (List (List Pixel) × List Nat)
  | 0, _, s => some ([], s)
  | h + 1, w, s => do
    let (line, s1) ← readLine s
    let row ← readP3Pixels w (fieldsGo line)
    let (rows, s2) ← readP3Rows h w s1
    some (row :: rows, s2)

/-- Group raw bytes in R,G,B triples. -/
def bytesToPixels : List Nat → List Pixel
  | r :: g :: b :: t => ⟨r, g, b⟩ :: bytesToPixels t
  | _ => []

/-- The P6 row loop (ppm.go): `width*3` bytes per row via one
`bufio.Read` whose byte count is not checked — a short read leaves the
zero-initialised tail of the row buffer in place; only a completely empty
stream surfaces `io.EOF` as an error. -/
def readP6Rows : Nat → Nat → List Nat → Option (List (List Pixel) × List Nat)
  | 0, _, s => some ([], s)
  | h + 1, w, s =>
    if s.length = 0 ∧ 0 < 3 * w then none
    else do
      let row := s.take (3 * w) ++ List.replicate (3 * w - min (3 * w) s.length) 0
      let (rows, s2) ← readP6Rows h w (s.drop (3 * w))
      some (bytesToPixels row :: rows, s2)

/-- `ReadPPM` (ppm.go lines 25–118): magic line (`P3`/`P6` — anything else
takes the `return nil, err` path), dimensions line (no positivity check),
max-value line (truncated by `uint8(max)`), then the P3 or P6 body. -/
def readPPM (s : List Nat) : Option PPM := do
  let (line, s1) ← readLine s
  let magic := trimSpace line
  if magic = magicP3 ∨ magic = magicP6 then do
    let (dline, s2) ← readLine s1
    let (w, h) ← scanTwoInts (trimSpace dline)
    let (mline, s3) ← readLine s2
    let mx ← scanOneInt (trimSpace mline)
    let _ ← allocGrid w h
    if magic = magicP3 then do
      let (rows, _) ← readP3Rows h.toNat w.toNat s3
      some ⟨rows, w, h, magic, toUInt8 mx⟩
    else do
      let (rows, _) ← readP6Rows h.toNat w.toNat s3
      some ⟨rows, w, h, magic, toUInt8 mx⟩
  else none

/-- Pixels from `uint8`-scanned tokens, three tokens per pixel
(src/unnamed/part_002 `ReadPPM` body; the `%d` scan into a `uint8`
variable is range-checked). -/
def readTokPixels : Nat → List (List Nat) → Option (List Pixel × List (List Nat))
  | 0, ts => some ([], ts)
  | w + 1, t1 :: t2 :: t3 :: ts => do
    let r ← parseUInt8 t1
    let g ← parseUInt8 t2
    let b ← parseUInt8 t3
    let (tl, ts2) ← readTokPixels w ts
    some (⟨r, g, b⟩ :: tl, ts2)
  | _ + 1, _ => none

/-- The row loop of part_002's `ReadPPM`. -/
def readTokRows : Nat → Nat → List (List Nat) → Option (List (List Pixel))
  | 0, _, _ => some []
  | h + 1, w, ts => do
    let (row, ts1) ← readTokPixels w ts
    let rows ← readTokRows h w ts1
    some (row :: rows)

/-- `ReadPPM` of src/unnamed/part_002 (lines 30–123): a
`bufio.Scanner(ScanWords)` tokenises the whole stream; magic, width,
height and max-value tokens (the max is scanned into an `int` and then
truncated by `uint8(maxVal)` — no range check), then `3*width*height`
range-checked `uint8` tokens. -/
def readPPMv2 (s : List Nat) : Option PPM :=
  match fieldsGo s with
  | mtok :: wtok :: htok :: mxtok :: rest =>
    if mtok = magicP3 ∨ mtok = magicP6 then do
      let w ← parseInt wtok
      let h ← parseInt htok
      let mx ← parseInt mxtok
      let _ ← allocGrid w h
      let rows ← readTokRows h.toNat w.toNat rest
      some ⟨rows, w, h, mtok, toUInt8 mx⟩
    else none
  | _ => none

/-- `PPM.Save` (ppm.go lines 140–172): only `P3`/`P6` magic numbers are
accepted (anything else is the "magic number error"); header
`"%s\n%d %d\n%d\n"`, then `"%d %d %d "` per pixel with a newline per row
(P3) or raw R,G,B bytes (P6). -/
def PPM.save (p : PPM) : Option (List Nat) :=
  if p.magicNumber = magicP3 ∨ p.magicNumber = magicP6 then
    some (p.magicNumber ++ [10] ++ intToBytes p.width ++ [32] ++ intToBytes p.height ++ [10] ++
      natToBytes p.max ++ [10] ++
      (if p.magicNumber = magicP6 then
        p.data.flatMap (fun row => row.flatMap (fun px => [px.R, px.G, px.B]))
      else
        p.data.flatMap (fun row =>
          row.flatMap (fun px =>
            natToBytes px.R ++ [32] ++ natToBytes px.G ++ [32] ++ natToBytes px.B ++ [32]) ++ [10])))
  else none

/-- `PPM.At` (ppm.go lines 126–128 and part_002 lines 131–133, identical):
`return ppm.data[y][x]` with no bounds check — out of range panics. -/
def PPM.At (p : PPM) (x y : Int) : Option Pixel :=
  if 0 ≤ y ∧ 0 ≤ x then
    (p.data.get? y.toNat).bind (fun row => row.get? x.toNat)
  else none

/-- `PPM.Set` (ppm.go lines 131–137): bounds-checked against
`width`/`height`; out of bounds does nothing. -/
def PPM.SetPx (p : PPM) (x y : Int) (color : Pixel) : PPM :=
  if 0 ≤ x ∧ x < p.width ∧ 0 ≤ y ∧ y < p.height then
    { p with data := p.data.set y.toNat ((p.data.getD y.toNat []).set x.toNat color) }
  else p

/-- `PPM.Set` of src/unnamed/part_002 (lines 136–138):
`ppm.data[y][x] = value` with no bounds check — out of range panics. -/
def PPM.SetPx2 (p : PPM) (x y : Int) (value : Pixel) : Option PPM :=
  if 0 ≤ y ∧ 0 ≤ x then
    (p.data.get? y.toNat).bind (fun row =>
      if x.toNat < row.length then
        some { p with data := p.data.set y.toNat (row.set x.toNat value) }
      else none)
  else none

/-! ## DrawLine

src/unnamed/part_002 lines 278–299: a pure integer slope-stepping line.
Note that after the endpoint swap the code keeps the ORIGINAL deltas, and
Go's `/` (truncated division, `Int.tdiv`) satisfies `(-a)/(-b) = a/b`, so
the two argument orders step through identical states.  `DrawLine(p,p)`
divides `0*0` by `deltaX = 0`: a Go runtime panic (`none`).  Pixels are
written through part_002's unchecked `Set`. -/

/-- The non-steep loop of part_002's `DrawLine`:
`for x := p1.X; x <= p2.X; x++ { y := p1.Y + deltaY*(x-p1.X)/deltaX; ppm.Set(x, int(y), color) }`. -/
def lineLoopX2 (q1X q1Y dX dY : Int) (c : Pixel) :
    Nat → Int → PPM → Option PPM
  | 0, _, img => some img
  | n + 1, x, img =>
    if dX = 0 then none
    else do
      let y := q1Y + (dY * (x - q1X)).tdiv dX
      let img1 ← img.SetPx2 x y c
      lineLoopX2 q1X q1Y dX dY c n (x + 1) img1

/-- The steep loop of part_002's `DrawLine`:
`for y := p1.Y; y <= p2.Y; y++ { x := p1.X + deltaX*(y-p1.Y)/deltaY; ppm.Set(int(x), y, color) }`. -/
def lineLoopY2 (q1X q1Y dX dY : Int) (c : Pixel) :
    Nat → Int → PPM → Option PPM
  | 0, _, img => some img
  | n + 1, y, img =>
    if dY = 0 then none
    else do
      let x := q1X + (dX * (y - q1Y)).tdiv dY
      let img1 ← img.SetPx2 x y c
      lineLoopY2 q1X q1Y dX dY c n (y + 1) img1

/-- `PPM.DrawLine` of src/unnamed/part_002 (lines 278–299).  The
`math.Abs(float64 ..)` comparison is modelled as the exact integer
comparison `|deltaX| >= |deltaY|` (bit-exact for |delta| < 2^53). -/
def PPM.drawLine2 (p1 p2 : Point) (c : Pixel) (img : PPM) : Option PPM :=
  let dX := p2.X - p1.X
  let dY := p2.Y - p1.Y
  if dY.natAbs ≤ dX.natAbs then
    let q1 := if p2.X < p1.X then p2 else p1
    let q2 := if p2.X < p1.X then p1 else p2
    lineLoopX2 q1.X q1.Y dX dY c ((q2.X - q1.X).toNat + 1) q1.X img
  else
    let q1 := if p2.Y < p1.Y then p2 else p1
    let q2 := if p2.Y < p1.Y then p1 else p2
    lineLoopY2 q1.X q1.Y dX dY c ((q2.Y - q1.Y).toNat + 1) q1.Y img

/-- The `float64` error-accumulator operations of ppm.go's `DrawLine`,
kept abstract: `steep a b` models `math.Abs(float64 a) > math.Abs(float64 b)`,
`deltaErr a b` models `math.Abs(float64 a / float64 b)`, `geHalf` models
`error >= 0.5` and `subOne` models `error -= 1.0`. -/
structure ErrOps (E : Type) where
  steep : Int → Int → Bool
  deltaErr : Int → Int → E
  zero : E
  add : E → E → E
  geHalf : E → Bool
  subOne : E → E

/-- The in-loop bounds pre-check of ppm.go's `DrawLine`
(`a >= 0 && a < len(ppm.data) && b >= 0 && b < len(ppm.data[a])`). -/
def lenCheck (img : PPM) (a b : Int) : Bool :=
  decide (0 ≤ a) && decide (a < (img.data.length : Int)) &&
    decide (0 ≤ b) && decide (b < ((img.data.getD a.toNat []).length : Int))

/-- The main loop of ppm.go's `DrawLine` (lines 319–342): plot (through the
length pre-check and the bounds-checked `Set`, with coordinates exchanged
when steep), accumulate the error, and step `y` by the sign of `deltaY`
when the error passes one half. -/
def lineLoopF {E : Type} (F : ErrOps E) (stp : Bool) (dY : Int) (dErr : E) (c : Pixel) :
    Nat → Int → Int → E → PPM → PPM
  | 0, _, _, _, img => img
  | n + 1, x, y, er, img =>
    let img1 :=
      if stp then (if lenCheck img y x then img.SetPx y x c else img)
      else (if lenCheck img x y then img.SetPx x y c else img)
    let er1 := F.add er dErr
    if F.geHalf er1 then
      lineLoopF F stp dY dErr c n (x + 1) (if 0 < dY then y + 1 else y - 1) (F.subOne er1) img1
    else
      lineLoopF F stp dY dErr c n (x + 1) y er1 img1

/-- `PPM.DrawLine` of ppm.go (lines 294–343), parameterised over the
`float64` operations: swap to the driving axis if steep, swap the
endpoints (negating the deltas) so iteration runs left to right, then run
the slope-error loop. -/
def PPM.drawLine1 {E : Type} (F : ErrOps E) (p1 p2 : Point) (c : Pixel) (img : PPM) : PPM :=
  let dX := p2.X - p1.X
  let dY := p2.Y - p1.Y
  let stp := F.steep dY dX
  let a1 : Point := if stp then ⟨p1.Y, p1.X⟩ else p1
  let a2 : Point := if stp then ⟨p2.Y, p2.X⟩ else p2
  let dX1 := if stp then dY else dX
  let dY1 := if stp then dX else dY
  let b1 := if a2.X < a1.X then a2 else a1
  let b2 := if a2.X < a1.X then a1 else a2
  let dX2 := if a2.X < a1.X then -dX1 else dX1
  let dY2 := if a2.X < a1.X then -dY1 else dY1
  let dErr := F.deltaErr dY2 dX2
  lineLoopF F stp dY2 dErr c ((b2.X - b1.X).toNat + 1) b1.X b1.Y F.zero img

/-- An exact-rational instantiation of the `float64` operations, as
unnormalised fractions `(numerator, denominator)`; denominator `0` plays
the role of the `NaN` produced by `0.0/0.0` (every `>= 0.5` comparison on
it is false, and it is absorbing under `+`, as for `NaN`).  This is
bit-exact for the dyadic slope ratios exercised by the concrete inputs in
this file. -/
def fracOps : ErrOps (Int × Nat) where
  steep a b := decide (b.natAbs < a.natAbs)
  deltaErr a b := ((a.natAbs : Int), b.natAbs)
  zero := (0, 1)
  add x y := (x.1 * y.2 + y.1 * x.2, x.2 * y.2)
  geHalf x := decide (0 < x.2) && decide ((x.2 : Int) ≤ 2 * x.1)
  subOne x := (x.1 - x.2, x.2)

/-! ## Polygons -/

/-- `PPM.DrawPolygon` of ppm.go (lines 453–467): fewer than 3 vertices is
an early `return`; otherwise a line between each consecutive pair and a
closing line from the last vertex to the first, all drawn with ppm.go's
`DrawLine` (abstracted over its float operations). -/
def PPM.drawPolygon1 {E : Type} (F : ErrOps E) (points : List Point) (c : Pixel) (img : PPM) :
    PPM :=
  if points.length < 3 then img
  else
    match points with
    | [] => img
    | p0 :: rest =>
      let img1 := ((p0 :: rest).zip rest).foldl
        (fun im pr => PPM.drawLine1 F pr.1 pr.2 c im) img
      PPM.drawLine1 F (points.getLastD p0) p0 c img1

/-- `PPM.DrawPolygon` of src/unnamed/part_002 (lines 369–374): NO vertex
count guard; `points[len(points)-1]` on an empty list panics, and the
closing `DrawLine` of a 1-point list divides by zero. -/
def PPM.drawPolygon2 (points : List Point) (c : Pixel) (img : PPM) : Option PPM :=
  match points with
  | [] => none
  | p0 :: rest => do
    let img1 ← ((p0 :: rest).zip rest).foldlM
      (fun im pr => PPM.drawLine2 pr.1 pr.2 c im) img
    PPM.drawLine2 (points.getLastD p0) p0 c img1

/-- One row of the fill phase of ppm.go's `DrawFilledPolygon` (lines
474–491): record the columns `j < width` whose pixel already equals the
fill colour, and if there are at least two, overwrite everything strictly
between the first and the last. -/
def fillRowV1 (c : Pixel) (w : Nat) (row : List Pixel) : List Pixel :=
  let ps := ((row.take w).enum).filterMap (fun jv => if jv.2 = c then some jv.1 else none)
  if 1 < ps.length then
    row.enum.map (fun kv =>
      if (ps.headD 0 : Nat) < kv.1 ∧ kv.1 < ps.getLastD 0 then c else kv.2)
  else row

/-- `PPM.DrawFilledPolygon` of ppm.go (lines 470–492): draw the outline,
then run the pixel-colour-matching row fill over the first `height` rows
(direct `ppm.data[i][j]` indexing, a panic when the grid is shorter than
the declared size). -/
def PPM.drawFilledPolygon1 {E : Type} (F : ErrOps E) (points : List Point) (c : Pixel)
    (img : PPM) : Option PPM :=
  let g := PPM.drawPolygon1 F points c img
  let h := g.height.toNat
  let w := g.width.toNat
  if h ≤ g.data.length ∧ (g.data.take h).all (fun r => w ≤ r.length) then
    some { g with data := (g.data.take h).map (fillRowV1 c w) ++ g.data.drop h }
  else none

/-- The edge list walked by part_002's polygon loops:
`i` paired with `(i+1) % len(points)`. -/
def cyclicPairs : List Point → List (Point × Point)
  | [] => []
  | p :: rest => (p :: rest).zip (rest ++ [p])

/-- The crossing test of part_002's `DrawFilledPolygon` (line 395):
`(points[i].Y < y && points[j].Y >= y) || (points[j].Y < y && points[i].Y >= y)`. -/
def crossTest (y : Int) (e : Point × Point) : Bool :=
  (decide (e.1.Y < y) && decide (y ≤ e.2.Y)) || (decide (e.2.Y < y) && decide (y ≤ e.1.Y))

/-- The crossing abscissa (line 396):
`int(float64(xi) + (float64(y-yi)/float64(yj-yi))*float64(xj-xi))`.
The `float64` value is the rational `xi + (y-yi)*(xj-xi)/(yj-yi)` and
`int(..)` truncates toward zero, i.e. `Int.tdiv` of the common-denominator
form (bit-exact whenever the float quotient is, in particular for the
power-of-two edge heights of the concrete inputs here). -/
def interpX (y : Int) (e : Point × Point) : Int :=
  (e.1.X * (e.2.Y - e.1.Y) + (y - e.1.Y) * (e.2.X - e.1.X)).tdiv (e.2.Y - e.1.Y)

/-- All crossing abscissae of scanline `y`. -/
def intersectionsAt (points : List Point) (y : Int) : List Int :=
  (cyclicPairs points).filterMap (fun e => if crossTest y e then some (interpX y e) else none)

/-- Ascending insertion into a sorted list. -/
def insertSorted (x : Int) : List Int → List Int
  | [] => [x]
  | a :: t => if x ≤ a then x :: a :: t else a :: insertSorted x t

/-- `sort.Ints`, modelled by insertion sort (over `Int` every ascending
sort agrees pointwise, so the model is exact). -/
def sortInts (l : List Int) : List Int := l.foldr insertSorted []

/-- The consecutive pairing `intersections[i]`,`intersections[i+1]` of the
`i += 2` fill loop; a trailing unpaired element is the out-of-range index
panic (`none`). -/
def pairUp : List Int → Option (List (Int × Int))
  | [] => some []
  | [_] => none
  | a :: b :: t => (pairUp t).map (fun l => (a, b) :: l)

/-- `for x := intersections[i]; x <= intersections[i+1]; x++ { ppm.Set(x, y, color) }`
with part_002's unchecked `Set`. -/
def fillSpan (y : Int) (c : Pixel) : Nat → Int → PPM → Option PPM
  | 0, _, img => some img
  | n + 1, x, img => do
    let img1 ← img.SetPx2 x y c
    fillSpan y c n (x + 1) img1

/-- One scanline of part_002's `DrawFilledPolygon`: collect the crossings,
sort them ascending, and fill between consecutive pairs. -/
def scanRow (points : List Point) (c : Pixel) (y : Int) (img : PPM) : Option PPM := do
  let sorted := sortInts (intersectionsAt points y)
  let pairs ← pairUp sorted
  pairs.foldlM (fun im ab => fillSpan y c ((ab.2 - ab.1 + 1).toNat) ab.1 im) img

/-- The scanline loop from `minY` to `maxY`. -/
def scanRows (points : List Point) (c : Pixel) : Nat → Int → PPM → Option PPM
  | 0, _, img => some img
  | n + 1, y, img => do
    let img1 ← scanRow points c y img
    scanRows points c n (y + 1) img1

/-- `PPM.DrawFilledPolygon` of src/unnamed/part_002 (lines 377–409): the
even-odd scanline fill.  `points[0].Y` on an empty vertex list panics. -/
def PPM.drawFilledPolygon2 (points : List Point) (c : Pixel) (img : PPM) : Option PPM :=
  match points with
  | [] => none
  | p0 :: _ =>
    let minY := points.foldl (fun m pt => if pt.Y < m then pt.Y else m) p0.Y
    let maxY := points.foldl (fun m pt => if m < pt.Y then pt.Y else m) p0.Y
    scanRows points c ((maxY - minY + 1).toNat) minY img

/-! ## Structural invariants and concrete inputs -/

/-- The dense-grid invariant of a directly constructed image:
`height` rows of `width` samples. -/
def gridOK {α : Type} (w h : Int) (data : List (List α)) : Prop :=
  data.length = h.toNat ∧ ∀ r ∈ data, r.length = w.toNat

instance {α : Type} (w h : Int) (data : List (List α)) : Decidable (gridOK w h data) := by
  unfold gridOK; infer_instance

/-- A directly constructed bitmap: positive dimensions and a dense grid. -/
def PBM.valid (m : PBM) : Prop :=
  0 < m.width ∧ 0 < m.height ∧ gridOK m.width m.height m.data

/-- A directly constructed graymap: positive dimensions, a dense grid, and
`uint8`-ranged samples and max value. -/
def PGM.valid (g : PGM) : Prop :=
  0 < g.width ∧ 0 < g.height ∧ gridOK g.width g.height g.data ∧ g.max < 256 ∧
    ∀ r ∈ g.data, ∀ v ∈ r, v < 256

/-- A directly constructed pixmap: positive dimensions, a dense grid, and
`uint8`-ranged channels and max value. -/
def PPM.valid (p : PPM) : Prop :=
  0 < p.width ∧ 0 < p.height ∧ gridOK p.width p.height p.data ∧ p.max < 256 ∧
    ∀ r ∈ p.data, ∀ px ∈ r, px.R < 256 ∧ px.G < 256 ∧ px.B < 256

instance (m : PBM) : Decidable m.valid := by unfold PBM.valid; infer_instance

instance (g : PGM) : Decidable g.valid := by unfold PGM.valid; infer_instance

instance (p : PPM) : Decidable p.valid := by unfold PPM.valid; infer_instance

/-- Concrete round-trip inputs, one per format. -/
def pbmExP1 : PBM := ⟨[[true, false], [false, true]], 2, 2, magicP1⟩

def pbmExP4 : PBM :=
  ⟨[[true, false, true, false, true, false, true, false, true, true]], 10, 1, magicP4⟩

def pgmExP2 : PGM := ⟨[[0, 127], [128, 255]], 2, 2, magicP2, 255⟩

def pgmExP5 : PGM := ⟨[[0, 127], [128, 255]], 2, 2, magicP5, 255⟩

def ppmExP3 : PPM := ⟨[[⟨1, 2, 3⟩, ⟨4, 5, 6⟩]], 2, 1, magicP3, 255⟩

def ppmExP6 : PPM := ⟨[[⟨1, 2, 3⟩, ⟨4, 5, 6⟩]], 2, 1, magicP6, 255⟩

def blackPx : Pixel := ⟨0, 0, 0⟩

def redPx : Pixel := ⟨255, 0, 0⟩

/-- A `width × height` all-black P3 image (direct construction). -/
def blankPPM (w h : Nat) : PPM :=
  ⟨List.replicate h (List.replicate w blackPx), (w : Int), (h : Int), magicP3, 255⟩

/-- A 1×1 graymap, for probing the accessors out of bounds. -/
def pgmC3 : PGM := ⟨[[0]], 1, 1, magicP2, 255⟩

/-- The graymap of the threshold-conversion claim:
maxValue 255, pixels `[0, 127, 128, 255]`. -/
def pgmC5 : PGM := ⟨[[0, 127, 128, 255]], 4, 1, magicP2, 255⟩

/-- The byte stream `"P2\n1 1\n300\n7\n"`: a P2 header whose max-value
token exceeds 255. -/
def streamC6 : List Nat := [80, 50, 10, 49, 32, 49, 10, 51, 48, 48, 10, 55, 10]

/-- What pgm.go's decoder produces on `streamC6`: max 300 truncated to 44. -/
def pgmC6 : PGM := ⟨[[7]], 1, 1, magicP2, 44⟩

/-- The token stream `"P3 1 1 300 1 2 3"` for part_002's PPM decoder. -/
def streamC6ppm : List Nat :=
  [80, 51, 32, 49, 32, 49, 32, 51, 48, 48, 32, 49, 32, 50, 32, 51]

/-- What part_002's decoder produces on `streamC6ppm`: max 300 truncated to 44. -/
def ppmC6 : PPM := ⟨[[⟨1, 2, 3⟩]], 1, 1, magicP3, 44⟩

/-- The byte stream `"P1\n0 0\n"`: a P1 header with zero dimensions. -/
def streamC7 : List Nat := [80, 49, 10, 48, 32, 48, 10]

/-- The token stream `"P3 0 0 255"` for part_002's PPM decoder. -/
def streamC7ppm : List Nat := [80, 51, 32, 48, 32, 48, 32, 50, 53, 53]

/-- A valid P2 stream (`"P2\n1 1\n255\n7\n"`), for the witnesses. -/
def streamP2ok : List Nat := [80, 50, 10, 49, 32, 49, 10, 50, 53, 53, 10, 55, 10]

/-- A two-vertex "polygon". -/
def ptsC9 : List Point := [⟨0, 0⟩, ⟨2, 0⟩]

/-- A simple non-convex pentagon (concave notch descending to `(4,4)`). -/
def pentC8 : List Point := [⟨0, 0⟩, ⟨8, 0⟩, ⟨8, 8⟩, ⟨4, 4⟩, ⟨0, 8⟩]

/-- A small right triangle away from the stray pixels of `imgStray`. -/
def triC8 : List Point := [⟨0, 0⟩, ⟨2, 0⟩, ⟨0, 2⟩]

/-- A 6×6 black image with two stray `redPx` pixels at `(0,5)` and `(5,5)`. -/
def imgStray : PPM :=
  ⟨List.replicate 5 (List.replicate 6 blackPx) ++
    [[redPx] ++ List.replicate 4 blackPx ++ [redPx]], 6, 6, magicP3, 255⟩

/-- The scanline fill of `pentC8` on a blank 9×9 image, written out: the
interior rows are solid, the concave notch (centre of rows 5–8) stays
black — no holes, no leakage. -/
def pentFilled : PPM :=
  ⟨[List.replicate 9 blackPx,
    List.replicate 9 redPx,
    List.replicate 9 redPx,
    List.replicate 9 redPx,
    List.replicate 9 redPx,
    List.replicate 4 redPx ++ [blackPx] ++ List.replicate 4 redPx,
    List.replicate 3 redPx ++ List.replicate 3 blackPx ++ List.replicate 3 redPx,
    List.replicate 2 redPx ++ List.replicate 5 blackPx ++ List.replicate 2 redPx,
    [redPx] ++ List.replicate 7 blackPx ++ [redPx]],
   9, 9, magicP3, 255⟩

/-- Number of sign changes along a boolean path starting at `a` (used to
count scanline edge crossings around the polygon cycle). -/
def flips (a : Bool) : List Bool → Nat
  | [] => 0
  | b :: l => (if a != b then 1 else 0) + flips b l

/-! ## Helper lemmas -/

/-- Zipping a nonempty list with its rotation splits into the consecutive
pairs plus the closing pair. -/
theorem zip_rotate_closing (z : Point) :
    ∀ (p0 : Point) (rest : List Point),
      (p0 :: rest).zip (rest ++ [z]) =
        (p0 :: rest).zip rest ++ [((p0 :: rest).getLastD p0, z)] := by
  intro p0 rest
  induction rest generalizing p0 with
  | nil => rfl
  | cons b t ih =>
    simp only [List.cons_append, List.zip_cons_cons]
    rw [ih b]
    simp only [List.getLastD_cons, List.cons.injEq, List.append_cancel_left_eq,
      Prod.mk.injEq, and_true, true_and]

/-- The cyclic edge walk of a nonempty vertex list: consecutive pairs plus
the closing edge from the last vertex back to the first. -/
theorem cyclicPairs_closing (p0 : Point) (rest : List Point) :
    cyclicPairs (p0 :: rest) =
      (p0 :: rest).zip rest ++ [((p0 :: rest).getLastD p0, p0)] := by
  rw [cyclicPairs]
  exact zip_rotate_closing p0 p0 rest

/-- Unpacking one packed byte recovers its chunk, with the unused low bits
zero. -/
theorem unpackByte_packByte :
    ∀ g : List Bool, g.length ≤ 8 →
      unpackByte (packByte g 0) = g ++ List.replicate (8 - g.length) false := by
  intro g hle
  match g with
  | [] => decide
  | [a] => revert a; decide
  | [a, b] => revert a b; decide
  | [a, b, c] => revert a b c; decide
  | [a, b, c, d] => revert a b c d; decide
  | [a, b, c, d, e] => revert a b c d e; decide
  | [a, b, c, d, e, f] => revert a b c d e f; decide
  | [a, b, c, d, e, f, g1] => revert a b c d e f g1; decide
  | [a, b, c, d, e, f, g1, h1] => revert a b c d e f g1 h1; decide
  | a :: b :: c :: d :: e :: f :: g1 :: h1 :: i :: t => simp at hle

/-- The byte count and the bit-exact content of a packed P4 row: bytes are
filled most-significant-bit first and the padding bits beyond the row
width are written as 0. -/
theorem packRow_unpack :
    ∀ row : List Bool,
      (packRow row).length = (row.length + 7) / 8 ∧
      (packRow row).flatMap unpackByte =
        row ++ List.replicate ((row.length + 7) / 8 * 8 - row.length) false := by
  intro row
  induction row using packRow.induct with
  | case1 => simp [packRow]
  | case2 a b c d e f g h rest ih =>
    obtain ⟨ihl, ihu⟩ := ih
    have h8 : unpackByte (packByte [a, b, c, d, e, f, g, h] 0) = [a, b, c, d, e, f, g, h] := by
      simpa using unpackByte_packByte [a, b, c, d, e, f, g, h] (by simp)
    refine ⟨?_, ?_⟩
    · simp only [packRow, List.length_cons, ihl]
      omega
    · have hc : ((a :: b :: c :: d :: e :: f :: g :: h :: rest).length + 7) / 8 * 8 -
          (a :: b :: c :: d :: e :: f :: g :: h :: rest).length =
          (rest.length + 7) / 8 * 8 - rest.length := by
        simp only [List.length_cons]
        omega
      rw [hc]
      simp only [packRow, List.flatMap_cons, ihu, h8]
      simp [List.append_assoc]
  | case3 l h1 h2 =>
    have key : ∀ g1 : List Bool, g1 ≠ [] → g1.length ≤ 7 →
        ([packByte g1 0] : List Nat).length = (g1.length + 7) / 8 ∧
          ([packByte g1 0] : List Nat).flatMap unpackByte =
            g1 ++ List.replicate ((g1.length + 7) / 8 * 8 - g1.length) false := by
      intro g1 hne hle
      have hne0 : g1.length ≠ 0 := by simpa using hne
      refine ⟨by simp only [List.length_singleton]; omega, ?_⟩
      have hu := unpackByte_packByte g1 (by omega)
      have hc : (g1.length + 7) / 8 * 8 - g1.length = 8 - g1.length := by omega
      rw [hc]
      simpa using hu
    match l, h1, h2 with
    | [a], _, _ => exact key [a] (by simp) (by simp)
    | [a, b], _, _ => exact key [a, b] (by simp) (by simp)
    | [a, b, c], _, _ => exact key [a, b, c] (by simp) (by simp)
    | [a, b, c, d], _, _ => exact key [a, b, c, d] (by simp) (by simp)
    | [a, b, c, d, e], _, _ => exact key [a, b, c, d, e] (by simp) (by simp)
    | [a, b, c, d, e, f], _, _ => exact key [a, b, c, d, e, f] (by simp) (by simp)
    | [a, b, c, d, e, f, g], _, _ => exact key [a, b, c, d, e, f, g] (by simp) (by simp)
    | [], hh, _ => exact absurd rfl hh
    | a :: b :: c :: d :: e :: f :: g :: h :: t, _, hh =>
      exact absurd rfl (hh a b c d e f g h t)

/-! ## Parity of scanline crossings -/

/-- The crossing test fires exactly when the two endpoints lie on
different sides of the scanline (in the half-open sense `y ≤ ·`). -/
theorem crossTest_eq_xor (y : Int) (e : Point × Point) :
    crossTest y e = (decide (y ≤ e.1.Y) != decide (y ≤ e.2.Y)) := by
  rcases lt_or_ge e.1.Y y with h1 | h1 <;> rcases lt_or_ge e.2.Y y with h2 | h2
  · simp [crossTest, h1, h2, not_le.mpr h1, not_le.mpr h2]
  · simp [crossTest, h1, h2, not_le.mpr h1, not_lt.mpr h2]
  · simp [crossTest, h1, h2, not_lt.mpr h1, not_le.mpr h2]
  · simp [crossTest, h1, h2, not_lt.mpr h1, not_lt.mpr h2]

/-- A crossing edge has distinct endpoint ordinates. -/
theorem crossTest_ne (y : Int) (e : Point × Point) (h : crossTest y e = true) :
    e.1.Y ≠ e.2.Y := by
  rw [crossTest_eq_xor] at h
  intro heq
  rw [heq] at h
  simp at h

/-- Sign changes along a path have the parity of the endpoint mismatch. -/
theorem flips_mod_two (l : List Bool) :
    ∀ a : Bool, flips a l % 2 = if a = l.getLastD a then 0 else 1 := by
  induction l with
  | nil => intro a; simp [flips]
  | cons b t ih =>
    intro a
    have h := ih b
    simp only [flips, List.getLastD_cons]
    by_cases hab : a = b
    · subst hab
      simpa using h
    · have hflip : (if a != b then 1 else 0) = 1 := by simp [hab]
      rw [hflip]
      by_cases hbl : b = t.getLastD b
      · rw [if_neg (show ¬ a = t.getLastD b from by rw [← hbl]; exact hab)]
        rw [if_pos hbl] at h
        omega
      · have hal : a = t.getLastD b := by
          rcases hL : t.getLastD b with _ | _ <;> cases a <;> cases b <;> simp_all
        rw [if_pos hal]
        rw [if_neg hbl] at h
        omega

/-- The crossing count over the cyclic pairs, in path form. -/
theorem countP_zip_flips (f : Point → Bool) (z : Point) :
    ∀ (x : Point) (l : List Point),
      List.countP (fun e => f e.1 != f e.2) ((x :: l).zip (l ++ [z])) =
        flips (f x) (l.map f ++ [f z]) := by
  intro x l
  induction l generalizing x with
  | nil => simp [flips, List.countP_cons]
  | cons b t ih =>
    simp only [List.cons_append, List.zip_cons_cons, List.countP_cons, ih b, List.map_cons,
      flips, List.append_eq]
    omega

/-- Filtering with an `if p then some else none` body counts `p`. -/
theorem length_filterMap_ite {α β : Type} (p : α → Bool) (g : α → β) :
    ∀ l : List α,
      (l.filterMap (fun a => if p a then some (g a) else none)).length = l.countP p := by
  intro l
  induction l with
  | nil => rfl
  | cons a t ih =>
    simp only [List.filterMap_cons, List.countP_cons]
    by_cases h : p a
    · simp [h, ih]
    · simp [h, ih]

/-- The number of scanline crossings of a nonempty closed vertex list is
even, for every scanline. -/
theorem even_intersections (points : List Point) (hne : points ≠ []) (y : Int) :
    Even (intersectionsAt points y).length := by
  match points, hne with
  | p0 :: rest, _ =>
    rw [Nat.even_iff]
    unfold intersectionsAt
    rw [length_filterMap_ite (crossTest y) (interpX y) (cyclicPairs (p0 :: rest))]
    rw [List.countP_congr (fun e _ => by rw [crossTest_eq_xor y e])]
    unfold cyclicPairs
    rw [countP_zip_flips (fun p => decide (y ≤ p.Y)) p0 p0 rest]
    rw [flips_mod_two]
    rw [if_pos (by rw [List.getLastD_concat])]

/-- Insertion keeps one more element. -/
theorem length_insertSorted (x : Int) : ∀ l : List Int,
    (insertSorted x l).length = l.length + 1 := by
  intro l
  induction l with
  | nil => rfl
  | cons a t ih =>
    simp only [insertSorted]
    by_cases h : x ≤ a
    · simp [h]
    · simp [h, ih]

/-- Sorting keeps the length. -/
theorem length_sortInts : ∀ l : List Int, (sortInts l).length = l.length := by
  intro l
  induction l with
  | nil => rfl
  | cons a t ih =>
    simp only [sortInts, List.foldr_cons] at ih ⊢
    rw [length_insertSorted, ih]
    simp

/-- An even-length list pairs up without running off the end. -/
theorem pairUp_isSome_of_even : ∀ l : List Int, Even l.length → (pairUp l).isSome := by
  intro l
  induction l using pairUp.induct with
  | case1 => intro _; simp [pairUp]
  | case2 a => intro hl; simp at hl
  | case3 a b t ih =>
    intro hl
    have ht : Even t.length := by
      simp only [List.length_cons] at hl
      rcases hl with ⟨k, hk⟩
      exact ⟨k - 1, by omega⟩
    have hs := ih ht
    simp only [pairUp]
    rcases hpu : pairUp t with _ | pl
    · rw [hpu] at hs
      simp at hs
    · simp [hpu]

/-! ## C10: safety of the scanline fill internals -/

/-- C10: for every non-empty closed vertex list and every scanline `y`,
part_002's `DrawFilledPolygon` computes an even number of edge crossings
(the half-open crossing test changes sides an even number of times around
the cycle), every counted edge has distinct endpoint ordinates (so the
crossing interpolation never divides by zero), and the sorted crossing
list pairs up completely — the `intersections[i+1]` access of the `i += 2`
fill loop never runs off the end. -/
theorem C10_scanline_crossing_safety :
    ∀ points : List Point, points ≠ [] → ∀ y : Int,
      Even (intersectionsAt points y).length ∧
      (∀ e ∈ cyclicPairs points, crossTest y e = true → e.1.Y ≠ e.2.Y) ∧
      (pairUp (sortInts (intersectionsAt points y))).isSome := by
  intro points hne y
  refine ⟨even_intersections points hne y, fun e _ he => crossTest_ne y e he, ?_⟩
  apply pairUp_isSome_of_even
  rw [length_sortInts]
  exact even_intersections points hne y

/-- C10 witness: the safety facts at the concrete pentagon and a scanline
through its concave notch. -/
theorem C10_scanline_crossing_safety_witness :
    Even (intersectionsAt pentC8 6).length ∧
      (∀ e ∈ cyclicPairs pentC8, crossTest 6 e = true → e.1.Y ≠ e.2.Y) ∧
      (pairUp (sortInts (intersectionsAt pentC8 6))).isSome :=
  C10_scanline_crossing_safety pentC8 (by decide) 6

/-! ## C2: P4 bit packing -/

/-- C2: encoding the width-10 bitmap row `[1,0,1,0,1,0,1,0,1,1]` in binary
form produces exactly the two bytes `0b10101010`, `0b11000000` (the whole
P4 file being header plus those two bytes), and in general a packed row
holds `ceil(width/8)` bytes whose MSB-first bit stream is the row followed
by zero padding bits. -/
theorem C2_p4_bit_packing :
    pbmExP4.save = [80, 52, 10, 49, 48, 32, 49, 10, 0b10101010, 0b11000000] ∧
      (∀ row : List Bool,
        (packRow row).length = (row.length + 7) / 8 ∧
        (packRow row).flatMap unpackByte =
          row ++ List.replicate ((row.length + 7) / 8 * 8 - row.length) false) :=
  ⟨by decide, packRow_unpack⟩

/-! ## Symmetry of the line loops -/

/-- Negating both deltas does not change the non-steep part_002 loop
(Go's truncated division satisfies `(-a)/(-b) = a/b`). -/
theorem lineLoopX2_neg (q1X q1Y dX dY : Int) (c : Pixel) :
    ∀ (n : Nat) (x : Int) (img : PPM),
      lineLoopX2 q1X q1Y (-dX) (-dY) c n x img = lineLoopX2 q1X q1Y dX dY c n x img := by
  intro n
  induction n with
  | zero => intro x img; rfl
  | succ n ih =>
    intro x img
    simp only [lineLoopX2, neg_eq_zero]
    by_cases h : dX = 0
    · simp [h]
    · rw [if_neg h, if_neg h, neg_mul, Int.neg_tdiv, Int.tdiv_neg, neg_neg]
      cases img.SetPx2 x (q1Y + (dY * (x - q1X)).tdiv dX) c with
      | none => rfl
      | some img1 => exact ih (x + 1) img1

/-- Negating both deltas does not change the steep part_002 loop. -/
theorem lineLoopY2_neg (q1X q1Y dX dY : Int) (c : Pixel) :
    ∀ (n : Nat) (y : Int) (img : PPM),
      lineLoopY2 q1X q1Y (-dX) (-dY) c n y img = lineLoopY2 q1X q1Y dX dY c n y img := by
  intro n
  induction n with
  | zero => intro y img; rfl
  | succ n ih =>
    intro y img
    simp only [lineLoopY2, neg_eq_zero]
    by_cases h : dY = 0
    · simp [h]
    · rw [if_neg h, if_neg h, neg_mul, Int.neg_tdiv, Int.tdiv_neg, neg_neg]
      cases img.SetPx2 (q1X + (dX * (y - q1Y)).tdiv dY) y c with
      | none => rfl
      | some img1 => exact ih (y + 1) img1

/-- part_002's `DrawLine` paints the same result for both argument
orders (including the same panic behaviour on a degenerate line). -/
theorem drawLine2_comm (p1 p2 : Point) (c : Pixel) (img : PPM) :
    PPM.drawLine2 p1 p2 c img = PPM.drawLine2 p2 p1 c img := by
  obtain ⟨x1, y1⟩ := p1
  obtain ⟨x2, y2⟩ := p2
  unfold PPM.drawLine2
  dsimp only
  rw [show (y1 - y2).natAbs = (y2 - y1).natAbs from by omega,
    show (x1 - x2).natAbs = (x2 - x1).natAbs from by omega]
  by_cases hstp : (y2 - y1).natAbs ≤ (x2 - x1).natAbs
  · rw [if_pos hstp, if_pos hstp]
    split_ifs with h1 h2 h2 <;> dsimp only
    · omega
    · rw [show x2 - x1 = -(x1 - x2) from by ring, show y2 - y1 = -(y1 - y2) from by ring]
      exact lineLoopX2_neg x2 y2 (x1 - x2) (y1 - y2) c _ x2 img
    · rw [show x1 - x2 = -(x2 - x1) from by ring, show y1 - y2 = -(y2 - y1) from by ring]
      exact (lineLoopX2_neg x1 y1 (x2 - x1) (y2 - y1) c _ x1 img).symm
    · have hxx : x2 = x1 := by omega
      subst hxx
      simp [lineLoopX2, show x2 - x2 = 0 from by ring]
  · rw [if_neg hstp, if_neg hstp]
    split_ifs with h1 h2 h2 <;> dsimp only
    · omega
    · rw [show x2 - x1 = -(x1 - x2) from by ring, show y2 - y1 = -(y1 - y2) from by ring]
      exact lineLoopY2_neg x2 y2 (x1 - x2) (y1 - y2) c _ y2 img
    · rw [show x1 - x2 = -(x2 - x1) from by ring, show y1 - y2 = -(y2 - y1) from by ring]
      exact (lineLoopY2_neg x1 y1 (x2 - x1) (y2 - y1) c _ y1 img).symm
    · have hyy : y2 = y1 := by omega
      subst hyy
      exact absurd hstp (by simp)

/-- ppm.go's `DrawLine` normalises both argument orders to the same loop
state, for any float semantics whose steepness test is negation-symmetric,
calls (nondegenerate) vertical lines steep, and never calls horizontal
lines steep. -/
theorem drawLine1_comm {E : Type} (F : ErrOps E)
    (hsym : ∀ a b, F.steep (-a) (-b) = F.steep a b)
    (hvert : ∀ a, F.steep a 0 = false → a = 0)
    (hdeg : ∀ b, F.steep 0 b = false)
    (p1 p2 : Point) (c : Pixel) (img : PPM) :
    PPM.drawLine1 F p1 p2 c img = PPM.drawLine1 F p2 p1 c img := by
  obtain ⟨x1, y1⟩ := p1
  obtain ⟨x2, y2⟩ := p2
  unfold PPM.drawLine1
  dsimp only
  have hs : F.steep (y1 - y2) (x1 - x2) = F.steep (y2 - y1) (x2 - x1) := by
    have h := hsym (y2 - y1) (x2 - x1)
    rw [neg_sub, neg_sub] at h
    exact h
  rw [hs]
  cases hstp : F.steep (y2 - y1) (x2 - x1) with
  | true =>
    simp only [if_true]
    split_ifs with h1 h2 h2 <;> dsimp only
    · omega
    · rw [show x2 - x1 = -(x1 - x2) from by ring, show y2 - y1 = -(y1 - y2) from by ring,
        neg_neg, neg_neg]
    · rw [show x1 - x2 = -(x2 - x1) from by ring, show y1 - y2 = -(y2 - y1) from by ring,
        neg_neg, neg_neg]
    · exfalso
      have hyy : y1 = y2 := by omega
      subst hyy
      rw [sub_self, hdeg (x2 - x1)] at hstp
      exact Bool.false_ne_true hstp
  | false =>
    simp only [Bool.false_eq_true, if_false]
    split_ifs with h1 h2 h2 <;> dsimp only
    · omega
    · rw [show x2 - x1 = -(x1 - x2) from by ring, show y2 - y1 = -(y1 - y2) from by ring,
        neg_neg, neg_neg]
    · rw [show x1 - x2 = -(x2 - x1) from by ring, show y1 - y2 = -(y2 - y1) from by ring,
        neg_neg, neg_neg]
    · have hxx : x1 = x2 := by omega
      subst hxx
      rw [sub_self] at hstp
      have hy0 : y2 - y1 = 0 := hvert (y2 - y1) hstp
      have hyy : y1 = y2 := by omega
      subst hyy
      rfl

/-! ## C4: DrawLine argument symmetry -/

/-- C4: `DrawLine(p1,p2,c)` and `DrawLine(p2,p1,c)` paint exactly the same
pixels, for all integer endpoints: exactly (result and panic behaviour
included) for part_002's integer implementation, and for ppm.go's float
implementation under any deterministic float semantics whose steepness
test is negation-symmetric, calls nondegenerate vertical lines steep and
never calls horizontal lines steep (all three hold for IEEE `float64`,
since negation and `math.Abs` are exact). -/
theorem C4_drawline_symmetry :
    (∀ (p1 p2 : Point) (c : Pixel) (img : PPM),
      PPM.drawLine2 p1 p2 c img = PPM.drawLine2 p2 p1 c img) ∧
    (∀ (E : Type) (F : ErrOps E),
      (∀ a b, F.steep (-a) (-b) = F.steep a b) →
      (∀ a, F.steep a 0 = false → a = 0) →
      (∀ b, F.steep 0 b = false) →
      ∀ (p1 p2 : Point) (c : Pixel) (img : PPM),
        PPM.drawLine1 F p1 p2 c img = PPM.drawLine1 F p2 p1 c img) :=
  ⟨drawLine2_comm, fun _ F hsym hvert hdeg => drawLine1_comm F hsym hvert hdeg⟩

/-- C4 witness: both symmetry statements applied at concrete endpoints,
the float one instantiated with the exact-fraction semantics. -/
theorem C4_drawline_symmetry_witness :
    PPM.drawLine2 ⟨1, 4⟩ ⟨3, 0⟩ redPx (blankPPM 5 5) =
        PPM.drawLine2 ⟨3, 0⟩ ⟨1, 4⟩ redPx (blankPPM 5 5) ∧
      PPM.drawLine1 fracOps ⟨0, 0⟩ ⟨4, 2⟩ redPx (blankPPM 5 5) =
        PPM.drawLine1 fracOps ⟨4, 2⟩ ⟨0, 0⟩ redPx (blankPPM 5 5) :=
  ⟨C4_drawline_symmetry.1 ⟨1, 4⟩ ⟨3, 0⟩ redPx (blankPPM 5 5),
   C4_drawline_symmetry.2 (Int × Nat) fracOps
    (fun a b => by simp [fracOps])
    (fun a h => by simp [fracOps] at h; omega)
    (fun b => by simp [fracOps])
    ⟨0, 0⟩ ⟨4, 2⟩ redPx (blankPPM 5 5)⟩

/-! ## C3: the out-of-bounds accessor contract -/

/-- C3, counterexample: the claim says every kind's `At` outside bounds
returns the zero value and every kind's `Set` outside bounds is a no-op;
but pgm.go's `PGM.At`/`PGM.Set` index `data[y][x]` directly, so on a 1×1
graymap the access at `(1,0)` and the write at `(0,1)` are runtime panics
(`none`), not a zero result or a no-op. -/
theorem C3_counterexample :
    PGM.At pgmC3 1 0 = none ∧ PGM.At pgmC3 1 0 ≠ some 0 ∧
      PGM.SetPx pgmC3 0 1 5 = none := by
  decide

/-- C3, amended: only the PBM accessors (and ppm.go's `PPM.Set`) implement
the defensive contract — `PBM.At` out of bounds returns `false`, `PBM.Set`
out of bounds is a no-op, and ppm.go's `PPM.Set` out of bounds is a no-op;
`PGM.At`/`PGM.Set`, `PPM.At` and part_002's `PPM.Set` index the rows
directly and panic out of bounds. -/
theorem C3_bounds_contract :
    (∀ (m : PBM) (x y : Int), ¬ (0 ≤ x ∧ x < m.width ∧ 0 ≤ y ∧ y < m.height) →
      m.At x y = some false ∧ ∀ v : Bool, m.SetPx x y v = some m) ∧
    (∀ (p : PPM) (x y : Int) (c : Pixel), ¬ (0 ≤ x ∧ x < p.width ∧ 0 ≤ y ∧ y < p.height) →
      p.SetPx x y c = p) ∧
    PGM.At pgmC3 2 0 = none ∧ PGM.SetPx pgmC3 2 0 5 = none ∧
    PPM.At (blankPPM 1 1) 1 0 = none ∧ PPM.SetPx2 (blankPPM 1 1) 0 1 redPx = none := by
  refine ⟨?_, ?_, by decide, by decide, by decide, by decide⟩
  · intro m x y h
    constructor
    · unfold PBM.At
      rw [if_neg h]
    · intro v
      unfold PBM.SetPx
      rw [if_neg h]
  · intro p x y c h
    unfold PPM.SetPx
    rw [if_neg h]

/-- C3 witness: the amended contract applied at concrete out-of-bounds
coordinates. -/
theorem C3_bounds_contract_witness :
    PBM.At pbmExP1 5 0 = some false ∧ PPM.SetPx (blankPPM 1 1) 5 0 redPx = blankPPM 1 1 :=
  ⟨(C3_bounds_contract.1 pbmExP1 5 0 (by decide)).1,
   C3_bounds_contract.2.1 (blankPPM 1 1) 5 0 redPx (by decide)⟩

/-! ## C5: the Graymap→Bitmap threshold policy -/

/-- C5, counterexample: on the graymap with maxValue 255 and pixels
`[0,127,128,255]`, pgm.go's `ToPBM` (the first cited implementation) does
not yield the claimed `[false,false,true,true]`, and the claimed
"at or above maxValue/2 is on" policy disagrees with the one cited
implementation (pbm.go's) that does yield that list. -/
theorem C5_counterexample :
    (PGM.toPBMv1 pgmC5).data ≠ [[false, false, true, true]] ∧
      (PGM.toPBMspecGE pgmC5).data ≠ (PGM.toPBMv2 pgmC5).data := by
  decide

/-- C5, amended: the two `PGM.ToPBM` implementations use strict
comparisons, not "at or above": pbm.go's variant turns a pixel on iff its
value is strictly above `max/2` (giving `[false,false,true,true]` on
`[0,127,128,255]`), pgm.go's variant iff strictly below `max/2` (giving
`[true,false,false,false]`); the spec's "≥ max/2" policy would give
`[false,true,true,true]`. -/
theorem C5_threshold_policy :
    (PGM.toPBMv2 pgmC5).data = [[false, false, true, true]] ∧
      (PGM.toPBMv1 pgmC5).data = [[true, false, false, false]] ∧
      (PGM.toPBMspecGE pgmC5).data = [[false, true, true, true]] := by
  decide

/-! ## C6: max-value tokens above 255 -/

/-- C6, counterexample: decoding the header `"P2\n1 1\n300\n7\n"` does not
fail — the max-value 300 is truncated by the `uint8(max)` conversion to
44 and decoding succeeds. -/
theorem C6_counterexample : readPGM streamC6 = some pgmC6 := by decide

/-- C6, amended: the decoders perform no max-value range check; a token
above 255 is wrapped modulo 256 by the `uint8(..)` conversion (300 becomes
44 in both pgm.go's `ReadPGM` and part_002's `ReadPPM`), and every decoded
max value lands in single-byte range by truncation, not by rejection. -/
theorem C6_max_truncation :
    readPGM streamC6 = some pgmC6 ∧ readPPMv2 streamC6ppm = some ppmC6 ∧
      ∀ (s : List Nat) (g : PGM), readPGM s = some g → g.max < 256 := by
  refine ⟨by decide, by decide, ?_⟩
  intro s g h
  unfold readPGM at h
  obtain ⟨⟨line, s1⟩, h1, h⟩ := Option.bind_eq_some.mp h
  try dsimp only at h
  split at h
  · obtain ⟨⟨dline, s2⟩, h2, h⟩ := Option.bind_eq_some.mp h
    try dsimp only at h
    obtain ⟨⟨w, ht⟩, h3, h⟩ := Option.bind_eq_some.mp h
    try dsimp only at h
    split at h
    · exact absurd h (by simp)
    · obtain ⟨⟨mline, s3⟩, h4, h⟩ := Option.bind_eq_some.mp h
      try dsimp only at h
      obtain ⟨mx, h5, h⟩ := Option.bind_eq_some.mp h
      try dsimp only at h
      obtain ⟨u, h6, h⟩ := Option.bind_eq_some.mp h
      try dsimp only at h
      split at h
      all_goals
        obtain ⟨⟨rows, s4⟩, h7, h⟩ := Option.bind_eq_some.mp h
        cases h
        dsimp only
        unfold toUInt8
        omega
  · exact absurd h (by simp)

/-- C6 witness: the no-range-check conclusion applied at the concrete
over-range stream. -/
theorem C6_max_truncation_witness : pgmC6.max < 256 :=
  C6_max_truncation.2.2 streamC6 pgmC6 (by decide)

/-! ## C7: dimension positivity checks -/

/-- C7, counterexample: `ReadPBM` accepts the header `"P1\n0 0\n"` and
returns an image with width 0 and height 0 — decode does not fail on
non-positive dimensions for every format. -/
theorem C7_counterexample : readPBM streamC7 = some ⟨[], 0, 0, magicP1⟩ := by decide

/-- C7, amended: only the PGM decoder rejects non-positive dimensions
(`width <= 0 || height <= 0`); the PBM and PPM decoders have no such
check and decode zero-dimension headers successfully (negative dimensions
die in the slice allocation, a panic rather than a returned error). -/
theorem C7_dimension_checks :
    (∀ (s : List Nat) (g : PGM), readPGM s = some g → 0 < g.width ∧ 0 < g.height) ∧
      readPBM streamC7 = some ⟨[], 0, 0, magicP1⟩ ∧
      readPPMv2 streamC7ppm = some ⟨[], 0, 0, magicP3, 255⟩ := by
  refine ⟨?_, by decide, by decide⟩
  intro s g h
  unfold readPGM at h
  obtain ⟨⟨line, s1⟩, h1, h⟩ := Option.bind_eq_some.mp h
  try dsimp only at h
  split at h
  · obtain ⟨⟨dline, s2⟩, h2, h⟩ := Option.bind_eq_some.mp h
    try dsimp only at h
    obtain ⟨⟨w, ht⟩, h3, h⟩ := Option.bind_eq_some.mp h
    try dsimp only at h
    split at h
    · exact absurd h (by simp)
    · next hpos =>
      obtain ⟨⟨mline, s3⟩, h4, h⟩ := Option.bind_eq_some.mp h
      try dsimp only at h
      obtain ⟨mx, h5, h⟩ := Option.bind_eq_some.mp h
      try dsimp only at h
      obtain ⟨u, h6, h⟩ := Option.bind_eq_some.mp h
      try dsimp only at h
      push_neg at hpos
      split at h
      all_goals
        obtain ⟨⟨rows, s4⟩, h7, h⟩ := Option.bind_eq_some.mp h
        cases h
        exact ⟨hpos.1, hpos.2⟩
  · exact absurd h (by simp)

/-- C7 witness: the PGM positivity conclusion applied at a concrete valid
stream. -/
theorem C7_dimension_checks_witness : 0 < pgmC6.width ∧ 0 < pgmC6.height :=
  C7_dimension_checks.1 streamC6 pgmC6 (by decide)

/-! ## C8: the polygon fill algorithms -/

/-- C8, counterexample: ppm.go's `DrawFilledPolygon` is the
pixel-colour-matching fill, not the even-odd scanline rule: filling the
small triangle `triC8` on an image with two stray fill-coloured pixels at
`(0,5)` and `(5,5)` paints `(2,5)` — a pixel far outside the polygon —
while the even-odd scanline fill (part_002) leaves it black. -/
theorem C8_counterexample :
    (PPM.drawFilledPolygon1 fracOps triC8 redPx imgStray).bind (fun p => p.At 2 5) =
        some redPx ∧
      (PPM.drawFilledPolygon2 triC8 redPx imgStray).bind (fun p => p.At 2 5) =
        some blackPx := by
  decide

/-- C8, amended: part_002's `DrawFilledPolygon` implements the even-odd
scanline rule and, on the simple non-convex pentagon `pentC8` over a blank
9×9 image, produces exactly `pentFilled` — solid interior rows with the
concave notch left black (no holes, no leakage; e.g. notch pixel `(4,6)`
stays black while interior pixel `(2,2)` is filled).  ppm.go's
`DrawFilledPolygon` instead fills between the outermost pixels of each row
that already carry the fill colour — a pixel-colour-matching approach that
paints the out-of-polygon pixel `(2,5)` of `imgStray`. -/
theorem C8_fill_algorithms :
    PPM.drawFilledPolygon2 pentC8 redPx (blankPPM 9 9) = some pentFilled ∧
      pentFilled.At 4 6 = some blackPx ∧
      pentFilled.At 2 2 = some redPx ∧
      (PPM.drawFilledPolygon1 fracOps triC8 redPx imgStray).bind (fun p => p.At 2 5) =
        some redPx := by
  refine ⟨by decide, by decide, by decide, by decide⟩

/-! ## C9: the polygon vertex-count guard -/

/-- C9, counterexample: part_002's `DrawPolygon` has no vertex-count
guard; on the two-point list `ptsC9` it draws a line (twice) instead of
leaving the image unchanged. -/
theorem C9_counterexample :
    PPM.drawPolygon2 ptsC9 redPx (blankPPM 3 1) ≠ some (blankPPM 3 1) := by
  decide

/-- C9, amended: ppm.go's `DrawPolygon` is a no-op below 3 vertices and,
for 3 or more, draws one line per consecutive pair plus the closing line
(the cyclic edge walk); part_002's `DrawPolygon` has no guard — two
vertices paint a line segment, and one vertex panics in the degenerate
closing `DrawLine` (integer division by zero). -/
theorem C9_polygon_vertex_guard :
    (∀ (E : Type) (F : ErrOps E) (pts : List Point) (c : Pixel) (img : PPM),
      pts.length < 3 → PPM.drawPolygon1 F pts c img = img) ∧
    (∀ (E : Type) (F : ErrOps E) (pts : List Point) (c : Pixel) (img : PPM),
      3 ≤ pts.length →
        PPM.drawPolygon1 F pts c img =
          (cyclicPairs pts).foldl (fun im pr => PPM.drawLine1 F pr.1 pr.2 c im) img) ∧
    PPM.drawPolygon2 ptsC9 redPx (blankPPM 3 1) =
      some ⟨[[redPx, redPx, redPx]], 3, 1, magicP3, 255⟩ ∧
    PPM.drawPolygon2 [(⟨0, 0⟩ : Point)] redPx (blankPPM 3 1) = none := by
  refine ⟨?_, ?_, by decide, by decide⟩
  · intro E F pts c img h
    unfold PPM.drawPolygon1
    rw [if_pos h]
  · intro E F pts c img h
    cases pts with
    | nil => simp at h
    | cons p0 rest =>
      unfold PPM.drawPolygon1
      rw [if_neg (by omega)]
      rw [cyclicPairs_closing p0 rest, List.foldl_append]
      rfl

/-- C9 witness: the guard and the edge-walk equation applied at concrete
inputs. -/
theorem C9_polygon_vertex_guard_witness :
    PPM.drawPolygon1 fracOps ptsC9 redPx (blankPPM 3 1) = blankPPM 3 1 :=
  C9_polygon_vertex_guard.1 (Int × Nat) fracOps ptsC9 redPx (blankPPM 3 1) (by decide)

/-! ## Decimal formatting round-trips -/

/-- The digit fuel is irrelevant once sufficient. -/
theorem natToRevDigitsAux_eq :
    ∀ (f1 f2 n : Nat), n ≤ f1 → n ≤ f2 →
      natToRevDigitsAux f1 n = natToRevDigitsAux f2 n := by
  intro f1
  induction f1 with
  | zero =>
    intro f2 n h1 h2
    interval_cases n
    cases f2 <;> rfl
  | succ f1 ih =>
    intro f2 n h1 h2
    cases n with
    | zero => cases f2 <;> rfl
    | succ n =>
      cases f2 with
      | zero => omega
      | succ f2 =>
        simp only [natToRevDigitsAux]
        rw [ih f2 ((n + 1) / 10) (by omega) (by omega)]

/-- The recursion equation of `natToRevDigits` on positive input. -/
theorem natToRevDigits_pos (n : Nat) (h : n ≠ 0) :
    natToRevDigits n = (n % 10 + 48) :: natToRevDigits (n / 10) := by
  cases n with
  | zero => exact absurd rfl h
  | succ m =>
    unfold natToRevDigits
    cases hm : m + 1 with
    | zero => omega
    | succ k =>
      rw [← hm]
      show natToRevDigitsAux (m + 1) (m + 1) = _
      rw [show natToRevDigitsAux (m + 1) (m + 1) =
        ((m + 1) % 10 + 48) :: natToRevDigitsAux m ((m + 1) / 10) from rfl]
      rw [natToRevDigitsAux_eq m ((m + 1) / 10) ((m + 1) / 10) (by omega) (by omega)]

/-- All rendered digit bytes are ASCII digits. -/
theorem natToRevDigits_digits :
    ∀ (n : Nat), ∀ b ∈ natToRevDigits n, 48 ≤ b ∧ b ≤ 57 := by
  intro n
  induction n using Nat.strong_induction_on with
  | _ n ih =>
    intro b hb
    cases hn : n with
    | zero => subst hn; simp [natToRevDigits, natToRevDigitsAux] at hb
    | succ m =>
      subst hn
      rw [natToRevDigits_pos (m + 1) (by omega)] at hb
      rcases List.mem_cons.mp hb with h | h
      · omega
      · exact ih ((m + 1) / 10) (by omega) b h

/-- `natToBytes` is a nonempty string of ASCII digits. -/
theorem natToBytes_ok (n : Nat) :
    natToBytes n ≠ [] ∧ ∀ b ∈ natToBytes n, 48 ≤ b ∧ b ≤ 57 := by
  unfold natToBytes
  by_cases h : n = 0
  · simp [h]
  · rw [if_neg h]
    constructor
    · rw [natToRevDigits_pos n h]
      simp
    · intro b hb
      exact natToRevDigits_digits n b (List.mem_reverse.mp hb)

/-- The `Option`-threaded digit fold never fails on digit bytes. -/
theorem foldl_digits_step (ds : List Nat) (hd : ∀ b ∈ ds, 48 ≤ b ∧ b ≤ 57) :
    ∀ acc : Nat,
      ds.foldl (fun a b =>
          a.bind (fun n => if 48 ≤ b ∧ b ≤ 57 then some (n * 10 + (b - 48)) else none))
        (some acc) =
        some (ds.foldl (fun n b => n * 10 + (b - 48)) acc) := by
  induction ds with
  | nil => intro acc; rfl
  | cons b t ih =>
    intro acc
    have hb := hd b (by simp)
    simp only [List.foldl_cons, Option.bind_some, if_pos hb]
    exact ih (fun x hx => hd x (by simp [hx])) _

/-- Folding the rendered digits most-significant-first reconstructs the
value on top of any accumulator. -/
theorem foldl_revDigits (n : Nat) :
    ∀ acc : Nat,
      (natToRevDigits n).reverse.foldl (fun m b => m * 10 + (b - 48)) acc =
        acc * 10 ^ (natToRevDigits n).length + n := by
  induction n using Nat.strong_induction_on with
  | _ n ih =>
    intro acc
    by_cases h : n = 0
    · subst h
      simp [natToRevDigits, natToRevDigitsAux]
    · rw [natToRevDigits_pos n h]
      simp only [List.reverse_cons, List.foldl_append, List.foldl_cons, List.foldl_nil,
        List.length_cons]
      rw [ih (n / 10) (by omega) acc]
      have : acc * 10 ^ (natToRevDigits (n / 10)).length * 10 =
          acc * 10 ^ ((natToRevDigits (n / 10)).length + 1) := by ring
      omega

/-- Parsing the decimal rendering of a natural number recovers it. -/
theorem parseNatDigits_natToBytes (n : Nat) :
    parseNatDigits (natToBytes n) = some n := by
  by_cases h : n = 0
  · subst h; decide
  · obtain ⟨hne, hdig⟩ := natToBytes_ok n
    have hb : natToBytes n = (natToRevDigits n).reverse := by
      unfold natToBytes; rw [if_neg h]
    rcases hx : natToBytes n with _ | ⟨b, t⟩
    · exact absurd hx hne
    · have : parseNatDigits (b :: t) =
          (b :: t).foldl (fun a c =>
            a.bind (fun m => if 48 ≤ c ∧ c ≤ 57 then some (m * 10 + (c - 48)) else none))
            (some 0) := rfl
      rw [this, ← hx, hb]
      rw [foldl_digits_step _ (by rw [← hb]; exact hdig) 0]
      rw [foldl_revDigits n 0]
      simp

/-- `strconv.Atoi` / `%d` on the rendering of a nonnegative `int`. -/
theorem parseInt_intToBytes (w : Int) (hw : 0 ≤ w) :
    parseInt (intToBytes w) = some w := by
  unfold intToBytes
  rw [if_neg (by omega)]
  obtain ⟨hne, hdig⟩ := natToBytes_ok w.toNat
  unfold parseInt
  split
  · next t heq =>
    exfalso
    have := hdig 45 (by rw [heq]; simp)
    omega
  · next t heq =>
    exfalso
    have := hdig 43 (by rw [heq]; simp)
    omega
  · rw [parseNatDigits_natToBytes]
    simp [Int.toNat_of_nonneg hw]

/-! ## Stream and token lemmas -/

/-- `ReadString('\n')` on a stream whose first line is `xs ++ [10]`. -/
theorem readLine_append (xs rest : List Nat) (h : 10 ∉ xs) :
    readLine (xs ++ 10 :: rest) = some (xs ++ [10], rest) := by
  induction xs with
  | nil => rfl
  | cons b t ih =>
    have hb : b ≠ 10 := fun hb => h (by simp [hb])
    simp only [List.cons_append, readLine, if_neg hb, List.append_eq]
    rw [ih (fun ht => h (by simp [ht]))]

/-- `getLastD` of a nonempty list ignores its default. -/
theorem getLastD_ne_nil {α : Type} (l : List α) (h : l ≠ []) (d1 d2 : α) :
    l.getLastD d1 = l.getLastD d2 := by
  cases l with
  | nil => exact absurd rfl h
  | cons a t => rw [List.getLastD_cons, List.getLastD_cons]

/-- `getLastD` of an append with nonempty right part. -/
theorem getLastD_append_right {α : Type} (l1 : List α) :
    ∀ (l2 : List α), l2 ≠ [] → ∀ d : α, (l1 ++ l2).getLastD d = l2.getLastD d := by
  induction l1 with
  | nil => intro l2 _ d; rfl
  | cons a t ih =>
    intro l2 h d
    simp only [List.cons_append, List.getLastD_cons]
    rw [ih l2 h a]
    exact getLastD_ne_nil l2 h a d

/-- `strings.TrimSpace` of a line with non-blank first and last byte just
strips the newline. -/
theorem trimSpace_clean (xs : List Nat) (hne : xs ≠ [])
    (hh : isSpaceByte (xs.headD 0) = false) (hl : isSpaceByte (xs.getLastD 0) = false) :
    trimSpace (xs ++ [10]) = xs := by
  cases xs with
  | nil => exact absurd rfl hne
  | cons x t =>
    unfold trimSpace
    have hdrop : ((x :: t) ++ [10]).dropWhile isSpaceByte = (x :: t) ++ [10] := by
      rw [List.cons_append, List.dropWhile_cons]
      simp only [List.headD_cons] at hh
      simp [hh]
    rw [hdrop]
    have hrev : (x :: t ++ [10]).reverse = 10 :: (x :: t).reverse := by
      rw [show x :: t ++ [10] = (x :: t) ++ [10] from rfl, List.reverse_append]
      rfl
    rw [hrev]
    rw [List.dropWhile_cons]
    rw [show isSpaceByte 10 = true from rfl]
    simp only [if_true]
    have hrevne : (x :: t).reverse ≠ [] := by simp
    rcases hrx : (x :: t).reverse with _ | ⟨r, rs⟩
    · exact absurd hrx hrevne
    · have hrlast : r = (x :: t).getLastD 0 := by
        have h1 : (x :: t).reverse.head? = some r := by rw [hrx]; rfl
        rw [List.head?_reverse] at h1
        have h2 : (x :: t).getLastD 0 = r := by
          rw [List.getLastD_eq_getLast?, h1]
          rfl
        omega
      rw [List.dropWhile_cons]
      rw [show isSpaceByte r = false from by rw [hrlast]; exact hl]
      simp only [Bool.false_eq_true, if_false]
      rw [← hrx, List.reverse_reverse]

/-- A digit byte is not whitespace. -/
theorem digit_not_space (b : Nat) (h : 48 ≤ b ∧ b ≤ 57) : isSpaceByte b = false := by
  unfold isSpaceByte
  simp only [Bool.or_eq_false_iff, decide_eq_false_iff_not]
  omega

/-- `fieldsAux` through a non-blank token up to a blank delimiter. -/
theorem fieldsAux_token (d : Nat) (hd : isSpaceByte d = true) :
    ∀ (tok : List Nat), (∀ b ∈ tok, isSpaceByte b = false) →
      ∀ (acc rest : List Nat), acc ≠ [] ∨ tok ≠ [] →
        fieldsAux acc (tok ++ d :: rest) = (acc.reverse ++ tok) :: fieldsAux [] rest := by
  intro tok
  induction tok with
  | nil =>
    intro _ acc rest hne
    have hacc : acc ≠ [] := by
      rcases hne with h | h
      · exact h
      · exact absurd rfl h
    simp only [List.nil_append, fieldsAux, hd, if_true]
    rw [if_neg (by simpa using hacc)]
    rw [List.append_nil]
  | cons c tc ih =>
    intro hns acc rest _
    have hc : isSpaceByte c = false := hns c (by simp)
    simp only [List.cons_append, fieldsAux, hc, List.append_eq]
    simp only [Bool.false_eq_true, if_false]
    rw [ih (fun b hb => hns b (by simp [hb])) (c :: acc) rest (Or.inl (by simp))]
    simp

/-- `fieldsAux` on a trailing non-blank token. -/
theorem fieldsAux_last :
    ∀ (tok : List Nat), (∀ b ∈ tok, isSpaceByte b = false) →
      ∀ acc : List Nat, acc ≠ [] ∨ tok ≠ [] →
        fieldsAux acc tok = [acc.reverse ++ tok] := by
  intro tok
  induction tok with
  | nil =>
    intro _ acc hne
    have hacc : acc ≠ [] := by
      rcases hne with h | h
      · exact h
      · exact absurd rfl h
    simp only [fieldsAux]
    rw [if_neg (by simpa using hacc)]
    rw [List.append_nil]
  | cons c tc ih =>
    intro hns acc _
    have hc : isSpaceByte c = false := hns c (by simp)
    simp only [fieldsAux, hc]
    simp only [Bool.false_eq_true, if_false]
    rw [ih (fun b hb => hns b (by simp [hb])) (c :: acc) (Or.inl (by simp))]
    simp

/-- `strings.Fields` pulls one leading token off at a blank delimiter. -/
theorem fieldsGo_token (tok : List Nat) (hne : tok ≠ [])
    (hns : ∀ b ∈ tok, isSpaceByte b = false) (d : Nat) (hd : isSpaceByte d = true)
    (rest : List Nat) :
    fieldsGo (tok ++ d :: rest) = tok :: fieldsGo rest := by
  unfold fieldsGo
  rw [fieldsAux_token d hd tok hns [] rest (Or.inr hne)]
  simp

/-- `strings.Fields` of a single trailing token. -/
theorem fieldsGo_last (tok : List Nat) (hne : tok ≠ [])
    (hns : ∀ b ∈ tok, isSpaceByte b = false) :
    fieldsGo tok = [tok] := by
  unfold fieldsGo
  rw [fieldsAux_last tok hns [] (Or.inr hne)]
  simp

/-! ## P1 and P4 body round-trips -/

/-- The P1 rune scan skips every byte that is not `'0'`/`'1'`. -/
theorem readBitP1_pre :
    ∀ (pre : List Nat), (∀ b ∈ pre, b ≠ 48 ∧ b ≠ 49) →
      ∀ s : List Nat, readBitP1 (pre ++ s) = readBitP1 s := by
  intro pre
  induction pre with
  | nil => intro _ s; rfl
  | cons b t ih =>
    intro h s
    have hb := h b (by simp)
    simp only [List.cons_append, readBitP1, if_neg hb.1, if_neg hb.2]
    exact ih (fun x hx => h x (by simp [hx])) s

/-- A nonempty-pixel-count P1 row read ignores leading junk. -/
theorem readP1Row_pre (n : Nat) (pre : List Nat) (hpre : ∀ b ∈ pre, b ≠ 48 ∧ b ≠ 49)
    (s : List Nat) : readP1Row (n + 1) (pre ++ s) = readP1Row (n + 1) s := by
  simp only [readP1Row]
  rw [readBitP1_pre pre hpre s]

/-- One-step unfolding of `readP1Row` in explicit `Option.bind` form. -/
theorem readP1Row_succ (n : Nat) (s : List Nat) :
    readP1Row (n + 1) s =
      (readBitP1 s).bind fun pr =>
        (readP1Row n pr.2).bind fun rr => some (pr.1 :: rr.1, rr.2) := rfl

/-- One-step unfolding of `readP1Rows` in explicit `Option.bind` form. -/
theorem readP1Rows_succ (h w : Nat) (s : List Nat) :
    readP1Rows (h + 1) w s =
      (readP1Row w s).bind fun pr =>
        (readP1Rows h w pr.2).bind fun rr => some (pr.1 :: rr.1, rr.2) := rfl

/-- Reading back one encoded P1 row (the stream continues with the byte
`' '` written after the row's last pixel). -/
theorem readP1Row_enc :
    ∀ (row : List Bool), row ≠ [] → ∀ rest : List Nat,
      readP1Row row.length (row.flatMap p1PixelBytes ++ rest) = some (row, 32 :: rest) := by
  intro row
  induction row with
  | nil => intro h; exact absurd rfl h
  | cons px t ih =>
    intro _ rest
    cases t with
    | nil =>
      cases px <;> rfl
    | cons q t2 =>
      have hb : readBitP1 (p1PixelBytes px ++ ((q :: t2).flatMap p1PixelBytes ++ rest)) =
          some (px, 32 :: ((q :: t2).flatMap p1PixelBytes ++ rest)) := by
        cases px <;> simp [p1PixelBytes, readBitP1]
      have hskip : readP1Row (q :: t2).length (32 :: ((q :: t2).flatMap p1PixelBytes ++ rest)) =
          readP1Row (q :: t2).length ((q :: t2).flatMap p1PixelBytes ++ rest) := by
        rw [show (32 : Nat) :: ((q :: t2).flatMap p1PixelBytes ++ rest) =
          [32] ++ ((q :: t2).flatMap p1PixelBytes ++ rest) from rfl]
        exact readP1Row_pre t2.length [32] (by simp) _
      show readP1Row ((q :: t2).length + 1)
          ((px :: q :: t2).flatMap p1PixelBytes ++ rest) = _
      rw [show (px :: q :: t2).flatMap p1PixelBytes ++ rest =
        p1PixelBytes px ++ ((q :: t2).flatMap p1PixelBytes ++ rest) from by simp]
      rw [readP1Row_succ, hb, Option.some_bind]
      rw [hskip, ih (by simp) rest]
      rfl

/-- Reading back the encoded P1 rows, tolerating skippable leading junk. -/
theorem readP1Rows_enc (w : Nat) (hw : w ≠ 0) :
    ∀ (rows : List (List Bool)) (pre rest : List Nat),
      (∀ b ∈ pre, b ≠ 48 ∧ b ≠ 49) → (∀ r ∈ rows, r.length = w) →
      ∃ left, readP1Rows rows.length w
          (pre ++ rows.flatMap (fun row => row.flatMap p1PixelBytes ++ [10]) ++ rest) =
        some (rows, left) := by
  intro rows
  induction rows with
  | nil => intro pre rest _ _; exact ⟨_, rfl⟩
  | cons row rows2 ih =>
    intro pre rest hpre hlen
    have hrw : row.length = w := hlen row (by simp)
    have hrne : row ≠ [] := by
      intro hcon
      rw [hcon] at hrw
      simp at hrw
      omega
    have hrow : readP1Row w
        (pre ++ (row.flatMap p1PixelBytes ++ ([10] ++
          (rows2.flatMap (fun r => r.flatMap p1PixelBytes ++ [10]) ++ rest)))) =
        some (row, 32 :: ([10] ++ (rows2.flatMap (fun r => r.flatMap p1PixelBytes ++ [10]) ++ rest))) := by
      obtain ⟨m, hm⟩ : ∃ m, w = m + 1 := ⟨w - 1, by omega⟩
      rw [hm] at hrw ⊢
      rw [readP1Row_pre m pre hpre _]
      rw [← hrw]
      exact readP1Row_enc row hrne _
    obtain ⟨left, hleft⟩ := ih [32, 10] rest (by simp) (fun r hr => hlen r (by simp [hr]))
    refine ⟨left, ?_⟩
    show readP1Rows (rows2.length + 1) w _ = _
    rw [show pre ++ (row :: rows2).flatMap (fun r => r.flatMap p1PixelBytes ++ [10]) ++ rest =
      pre ++ (row.flatMap p1PixelBytes ++ ([10] ++
        (rows2.flatMap (fun r => r.flatMap p1PixelBytes ++ [10]) ++ rest))) from by simp]
    rw [readP1Rows_succ, hrow, Option.some_bind]
    rw [show (32 : Nat) :: ([10] ++ (rows2.flatMap (fun r => r.flatMap p1PixelBytes ++ [10]) ++ rest)) =
      [32, 10] ++ rows2.flatMap (fun r => r.flatMap p1PixelBytes ++ [10]) ++ rest from by simp]
    rw [hleft]
    rfl

/-- One-step unfolding of `readP4Rows` in explicit `Option.bind` form. -/
theorem readP4Rows_succ (h w : Nat) (s : List Nat) :
    readP4Rows (h + 1) w s =
      (readP4Row (decide (h = 0)) w s).bind fun pr =>
        (readP4Rows h w pr.2).bind fun rr => some (pr.1 :: rr.1, rr.2) := rfl

/-- Reading back one packed P4 row consumes exactly its bytes. -/
theorem readP4Row_enc :
    ∀ (row : List Bool) (isLast : Bool) (rest : List Nat),
      readP4Row isLast row.length (packRow row ++ rest) = some (row, rest) := by
  intro row
  induction row using packRow.induct with
  | case1 => intro isLast rest; rfl
  | case2 a b c d e f g h rest8 ih =>
    intro isLast rest
    have h8 : unpackByte (packByte [a, b, c, d, e, f, g, h] 0) = [a, b, c, d, e, f, g, h] := by
      simpa using unpackByte_packByte [a, b, c, d, e, f, g, h] (by simp)
    cases rest8 with
    | nil =>
      show some ((unpackByte (packByte [a, b, c, d, e, f, g, h] 0)).take 8, [] ++ rest) =
        some ([a, b, c, d, e, f, g, h], rest)
      rw [h8]
      rfl
    | cons r t2 =>
      have harm : readP4Row isLast ((r :: t2).length + 8)
          (packByte [a, b, c, d, e, f, g, h] 0 :: (packRow (r :: t2) ++ rest)) =
          (readP4Row isLast (r :: t2).length (packRow (r :: t2) ++ rest)).map
            (fun rs => ((unpackByte (packByte [a, b, c, d, e, f, g, h] 0)).take 8 ++ rs.1,
              rs.2)) := by
        rw [show (r :: t2).length + 8 = t2.length + 9 from by simp]
        rfl
      show readP4Row isLast ((r :: t2).length + 8)
        (packByte [a, b, c, d, e, f, g, h] 0 :: (packRow (r :: t2) ++ rest)) = _
      rw [harm, ih isLast rest, h8]
      rfl
  | case3 l h1 h2 =>
    match l, h1, h2 with
    | [a1], _, _ =>
      intro isLast rest
      show some ((unpackByte (packByte [a1] 0)).take 1, rest) = some ([a1], rest)
      rw [show unpackByte (packByte [a1] 0) = [a1] ++ List.replicate 7 false from by
        simpa using unpackByte_packByte [a1] (by simp)]
      rfl
    | [a1, a2], _, _ =>
      intro isLast rest
      show some ((unpackByte (packByte [a1, a2] 0)).take 2, rest) = some ([a1, a2], rest)
      rw [show unpackByte (packByte [a1, a2] 0) = [a1, a2] ++ List.replicate 6 false from by
        simpa using unpackByte_packByte [a1, a2] (by simp)]
      rfl
    | [a1, a2, a3], _, _ =>
      intro isLast rest
      show some ((unpackByte (packByte [a1, a2, a3] 0)).take 3, rest) = some ([a1, a2, a3], rest)
      rw [show unpackByte (packByte [a1, a2, a3] 0) = [a1, a2, a3] ++ List.replicate 5 false from by
        simpa using unpackByte_packByte [a1, a2, a3] (by simp)]
      rfl
    | [a1, a2, a3, a4], _, _ =>
      intro isLast rest
      show some ((unpackByte (packByte [a1, a2, a3, a4] 0)).take 4, rest) = some ([a1, a2, a3, a4], rest)
      rw [show unpackByte (packByte [a1, a2, a3, a4] 0) = [a1, a2, a3, a4] ++ List.replicate 4 false from by
        simpa using unpackByte_packByte [a1, a2, a3, a4] (by simp)]
      rfl
    | [a1, a2, a3, a4, a5], _, _ =>
      intro isLast rest
      show some ((unpackByte (packByte [a1, a2, a3, a4, a5] 0)).take 5, rest) = some ([a1, a2, a3, a4, a5], rest)
      rw [show unpackByte (packByte [a1, a2, a3, a4, a5] 0) = [a1, a2, a3, a4, a5] ++ List.replicate 3 false from by
        simpa using unpackByte_packByte [a1, a2, a3, a4, a5] (by simp)]
      rfl
    | [a1, a2, a3, a4, a5, a6], _, _ =>
      intro isLast rest
      show some ((unpackByte (packByte [a1, a2, a3, a4, a5, a6] 0)).take 6, rest) = some ([a1, a2, a3, a4, a5, a6], rest)
      rw [show unpackByte (packByte [a1, a2, a3, a4, a5, a6] 0) = [a1, a2, a3, a4, a5, a6] ++ List.replicate 2 false from by
        simpa using unpackByte_packByte [a1, a2, a3, a4, a5, a6] (by simp)]
      rfl
    | [a1, a2, a3, a4, a5, a6, a7], _, _ =>
      intro isLast rest
      show some ((unpackByte (packByte [a1, a2, a3, a4, a5, a6, a7] 0)).take 7, rest) = some ([a1, a2, a3, a4, a5, a6, a7], rest)
      rw [show unpackByte (packByte [a1, a2, a3, a4, a5, a6, a7] 0) = [a1, a2, a3, a4, a5, a6, a7] ++ List.replicate 1 false from by
        simpa using unpackByte_packByte [a1, a2, a3, a4, a5, a6, a7] (by simp)]
      rfl
    | [], hh, _ => exact absurd rfl hh
    | a1 :: a2 :: a3 :: a4 :: a5 :: a6 :: a7 :: a8 :: t, _, hh =>
      exact absurd rfl (hh a1 a2 a3 a4 a5 a6 a7 a8 t)

/-- Reading back all packed P4 rows consumes exactly their bytes. -/
theorem readP4Rows_enc (w : Nat) :
    ∀ (rows : List (List Bool)) (rest : List Nat), (∀ r ∈ rows, r.length = w) →
      readP4Rows rows.length w (rows.flatMap packRow ++ rest) = some (rows, rest) := by
  intro rows
  induction rows with
  | nil => intro rest _; rfl
  | cons row rows2 ih =>
    intro rest hlen
    show readP4Rows (rows2.length + 1) w _ = _
    rw [readP4Rows_succ]
    rw [show (row :: rows2).flatMap packRow ++ rest =
      packRow row ++ (rows2.flatMap packRow ++ rest) from by simp]
    have hr := readP4Row_enc row (decide (rows2.length = 0)) (rows2.flatMap packRow ++ rest)
    rw [hlen row (by simp)] at hr
    rw [hr, Option.some_bind]
    dsimp only
    rw [ih _ (fun r hr2 => hlen r (by simp [hr2]))]
    rfl

/-! ## P2 and P5 body round-trips -/

/-- Every byte of a space-joined digit-token line is a digit or a blank —
never a newline. -/
theorem mem_joinSpace (toks : List (List Nat))
    (h : ∀ t ∈ toks, ∀ b ∈ t, 48 ≤ b ∧ b ≤ 57) :
    ∀ b ∈ joinSpace toks, b = 32 ∨ (48 ≤ b ∧ b ≤ 57) := by
  induction toks with
  | nil => intro b hb; simp [joinSpace] at hb
  | cons t ts ih =>
    intro b hb
    cases ts with
    | nil =>
      simp only [joinSpace] at hb
      exact Or.inr (h t (by simp) b hb)
    | cons t2 ts2 =>
      simp only [joinSpace] at hb
      rcases List.mem_append.mp hb with h1 | h1
      · exact Or.inr (h t (by simp) b h1)
      · rcases List.mem_cons.mp h1 with h2 | h2
        · exact Or.inl h2
        · exact ih (fun u hu => h u (by simp [hu])) b h2

/-- `strings.Fields` recovers the tokens of a space-joined line with its
trailing newline. -/
theorem fieldsGo_joinSpace :
    ∀ toks : List (List Nat), toks ≠ [] →
      (∀ t ∈ toks, t ≠ [] ∧ ∀ b ∈ t, isSpaceByte b = false) →
      fieldsGo (joinSpace toks ++ [10]) = toks := by
  intro toks
  induction toks with
  | nil => intro h; exact absurd rfl h
  | cons t ts ih =>
    intro _ hok
    cases ts with
    | nil =>
      simp only [joinSpace]
      rw [show t ++ [10] = t ++ 10 :: [] from rfl]
      rw [fieldsGo_token t (hok t (by simp)).1 (hok t (by simp)).2 10 rfl []]
      rfl
    | cons t2 ts2 =>
      simp only [joinSpace, List.cons_append, List.append_assoc]
      rw [show t ++ 32 :: (joinSpace (t2 :: ts2) ++ [10]) =
        t ++ 32 :: (joinSpace (t2 :: ts2) ++ [10]) from rfl]
      rw [fieldsGo_token t (hok t (by simp)).1 (hok t (by simp)).2 32 rfl _]
      rw [ih (by simp) (fun u hu => hok u (by simp [hu]))]

/-- `parseInt` on a `Nat` rendering. -/
theorem parseInt_natToBytes (n : Nat) : parseInt (natToBytes n) = some (n : Int) := by
  have h := parseInt_intToBytes (n : Int) (by omega)
  rw [show intToBytes (n : Int) = natToBytes n from by
    unfold intToBytes
    rw [if_neg (by omega)]
    simp] at h
  exact h

/-- `uint8` truncation is the identity in range. -/
theorem toUInt8_id (n : Nat) (h : n < 256) : toUInt8 (n : Int) = n := by
  unfold toUInt8
  omega

/-- Scanning a rendered in-range value into a `uint8` destination. -/
theorem parseUInt8_natToBytes (n : Nat) (h : n < 256) :
    parseUInt8 (natToBytes n) = some n := by
  unfold parseUInt8
  rw [parseInt_natToBytes]
  rw [Option.some_bind]
  rw [if_pos (by omega)]
  simp

/-- Parsing every token of an encoded P2 row. -/
theorem mapM_parseUInt8 :
    ∀ row : List Nat, (∀ v ∈ row, v < 256) →
      (row.map natToBytes).mapM parseUInt8 = some row := by
  intro row
  induction row with
  | nil => intro _; rfl
  | cons v t ih =>
    intro hv
    rw [List.map_cons, List.mapM_cons]
    rw [parseUInt8_natToBytes v (hv v (by simp))]
    rw [ih (fun u hu => hv u (by simp [hu]))]
    rfl

/-- Reading back one encoded P2 row line. -/
theorem readP2Row_enc (row : List Nat) (hne : row ≠ []) (hval : ∀ v ∈ row, v < 256) :
    readP2Row row.length (joinSpace (row.map natToBytes) ++ [10]) = some row := by
  unfold readP2Row
  have hfields : fieldsGo (joinSpace (row.map natToBytes) ++ [10]) = row.map natToBytes := by
    apply fieldsGo_joinSpace
    · simpa using hne
    · intro t ht
      obtain ⟨v, hv, rfl⟩ := List.mem_map.mp ht
      obtain ⟨h1, h2⟩ := natToBytes_ok v
      exact ⟨h1, fun b hb => digit_not_space b (h2 b hb)⟩
  rw [hfields]
  rw [if_neg (by simp)]
  rw [mapM_parseUInt8 row hval]
  simp

/-- One-step unfolding of `readP2Rows` in explicit `Option.bind` form. -/
theorem readP2Rows_succ (h w : Nat) (s : List Nat) :
    readP2Rows (h + 1) w s =
      (readLine s).bind fun pr =>
        (readP2Row w pr.1).bind fun row =>
          (readP2Rows h w pr.2).bind fun rr => some (row :: rr.1, rr.2) := rfl

/-- Reading back all encoded P2 row lines. -/
theorem readP2Rows_enc (w : Nat) (hw : w ≠ 0) :
    ∀ (rows : List (List Nat)) (rest : List Nat),
      (∀ r ∈ rows, r.length = w) → (∀ r ∈ rows, ∀ v ∈ r, v < 256) →
      readP2Rows rows.length w
          (rows.flatMap (fun row => joinSpace (row.map natToBytes) ++ [10]) ++ rest) =
        some (rows, rest) := by
  intro rows
  induction rows with
  | nil => intro rest _ _; rfl
  | cons row rows2 ih =>
    intro rest hlen hval
    have hrne : row ≠ [] := by
      intro hcon
      have := hlen row (by simp)
      rw [hcon] at this
      simp at this
      omega
    have hnl : (10 : Nat) ∉ joinSpace (row.map natToBytes) := by
      intro hmem
      have := mem_joinSpace (row.map natToBytes) ?_ 10 hmem
      · omega
      · intro t ht
        obtain ⟨v, hv, rfl⟩ := List.mem_map.mp ht
        exact (natToBytes_ok v).2
    show readP2Rows (rows2.length + 1) w _ = _
    rw [readP2Rows_succ]
    rw [show (row :: rows2).flatMap (fun r => joinSpace (r.map natToBytes) ++ [10]) ++ rest =
      joinSpace (row.map natToBytes) ++ 10 ::
        (rows2.flatMap (fun r => joinSpace (r.map natToBytes) ++ [10]) ++ rest) from by simp]
    rw [readLine_append _ _ hnl, Option.some_bind]
    dsimp only
    have hrow := readP2Row_enc row hrne (hval row (by simp))
    rw [hlen row (by simp)] at hrow
    rw [hrow, Option.some_bind]
    rw [ih rest (fun r hr => hlen r (by simp [hr])) (fun r hr => hval r (by simp [hr]))]
    rfl

/-- One-step unfolding of `readP5Rows` in explicit `Option.bind` form. -/
theorem readP5Rows_succ (h w : Nat) (s : List Nat) :
    readP5Rows (h + 1) w s =
      if s.length < w then none
      else (readP5Rows h w (s.drop w)).bind fun rr => some (s.take w :: rr.1, rr.2) := rfl

/-- Reading back all raw P5 rows. -/
theorem readP5Rows_enc (w : Nat) :
    ∀ (rows : List (List Nat)) (rest : List Nat), (∀ r ∈ rows, r.length = w) →
      readP5Rows rows.length w (rows.flatMap (fun r => r) ++ rest) = some (rows, rest) := by
  intro rows
  induction rows with
  | nil => intro rest _; rfl
  | cons row rows2 ih =>
    intro rest hlen
    have hrw : row.length = w := hlen row (by simp)
    show readP5Rows (rows2.length + 1) w _ = _
    rw [readP5Rows_succ]
    rw [show (row :: rows2).flatMap (fun r => r) ++ rest =
      row ++ (rows2.flatMap (fun r => r) ++ rest) from by simp]
    rw [if_neg (by rw [List.length_append, hrw]; omega)]
    rw [show (row ++ (rows2.flatMap (fun r => r) ++ rest)).drop w =
      rows2.flatMap (fun r => r) ++ rest from by rw [← hrw, List.drop_left]]
    rw [ih rest (fun r hr => hlen r (by simp [hr]))]
    rw [Option.some_bind]
    rw [show (row ++ (rows2.flatMap (fun r => r) ++ rest)).take w = row from by
      rw [← hrw, List.take_left]]

/-! ## P3 and P6 body round-trips -/

/-- The bytes written for one P3 pixel. -/
theorem fieldsGo_p3Pixels :
    ∀ row : List Pixel,
      fieldsGo (row.flatMap (fun px =>
          natToBytes px.R ++ [32] ++ natToBytes px.G ++ [32] ++ natToBytes px.B ++ [32]) ++
        [10]) =
        row.flatMap (fun px => [natToBytes px.R, natToBytes px.G, natToBytes px.B]) := by
  intro row
  induction row with
  | nil => rfl
  | cons px t ih =>
    have hok : ∀ n : Nat, natToBytes n ≠ [] ∧ ∀ b ∈ natToBytes n, isSpaceByte b = false :=
      fun n => ⟨(natToBytes_ok n).1,
        fun b hb => digit_not_space b ((natToBytes_ok n).2 b hb)⟩
    rw [show (px :: t).flatMap (fun q =>
        natToBytes q.R ++ [32] ++ natToBytes q.G ++ [32] ++ natToBytes q.B ++ [32]) ++ [10] =
      natToBytes px.R ++ 32 :: (natToBytes px.G ++ 32 :: (natToBytes px.B ++ 32 ::
        (t.flatMap (fun q =>
          natToBytes q.R ++ [32] ++ natToBytes q.G ++ [32] ++ natToBytes q.B ++ [32]) ++ [10]))) from by
      simp]
    rw [fieldsGo_token _ (hok px.R).1 (hok px.R).2 32 rfl _]
    rw [fieldsGo_token _ (hok px.G).1 (hok px.G).2 32 rfl _]
    rw [fieldsGo_token _ (hok px.B).1 (hok px.B).2 32 rfl _]
    rw [ih]
    simp

/-- Parsing back the tokens of one P3 row. -/
theorem readP3Pixels_enc :
    ∀ row : List Pixel, (∀ px ∈ row, px.R < 256 ∧ px.G < 256 ∧ px.B < 256) →
      readP3Pixels row.length
          (row.flatMap (fun px => [natToBytes px.R, natToBytes px.G, natToBytes px.B])) =
        some row := by
  intro row
  induction row with
  | nil => intro _; rfl
  | cons px t ih =>
    intro hval
    obtain ⟨hr, hg, hb⟩ := hval px (by simp)
    rw [show (px :: t).flatMap (fun q => [natToBytes q.R, natToBytes q.G, natToBytes q.B]) =
      natToBytes px.R :: natToBytes px.G :: natToBytes px.B ::
        t.flatMap (fun q => [natToBytes q.R, natToBytes q.G, natToBytes q.B]) from by simp]
    show readP3Pixels (t.length + 1) _ = _
    rw [show readP3Pixels (t.length + 1)
        (natToBytes px.R :: natToBytes px.G :: natToBytes px.B ::
          t.flatMap (fun q => [natToBytes q.R, natToBytes q.G, natToBytes q.B])) =
      (parseInt (natToBytes px.R)).bind fun r =>
        (parseInt (natToBytes px.G)).bind fun g =>
          (parseInt (natToBytes px.B)).bind fun b =>
            (readP3Pixels t.length
              (t.flatMap (fun q => [natToBytes q.R, natToBytes q.G, natToBytes q.B]))).bind
              fun tl => some (⟨toUInt8 r, toUInt8 g, toUInt8 b⟩ :: tl) from rfl]
    rw [parseInt_natToBytes, Option.some_bind, parseInt_natToBytes, Option.some_bind,
      parseInt_natToBytes, Option.some_bind]
    rw [ih (fun q hq => hval q (by simp [hq])), Option.some_bind]
    rw [toUInt8_id px.R hr, toUInt8_id px.G hg, toUInt8_id px.B hb]

/-- One-step unfolding of `readP3Rows` in explicit `Option.bind` form. -/
theorem readP3Rows_succ (h w : Nat) (s : List Nat) :
    readP3Rows (h + 1) w s =
      (readLine s).bind fun pr =>
        (readP3Pixels w (fieldsGo pr.1)).bind fun row =>
          (readP3Rows h w pr.2).bind fun rr => some (row :: rr.1, rr.2) := rfl

/-- Reading back all encoded P3 row lines. -/
theorem readP3Rows_enc (w : Nat) :
    ∀ (rows : List (List Pixel)) (rest : List Nat),
      (∀ r ∈ rows, r.length = w) →
      (∀ r ∈ rows, ∀ px ∈ r, px.R < 256 ∧ px.G < 256 ∧ px.B < 256) →
      readP3Rows rows.length w
          (rows.flatMap (fun row => row.flatMap (fun px =>
            natToBytes px.R ++ [32] ++ natToBytes px.G ++ [32] ++ natToBytes px.B ++ [32]) ++
            [10]) ++ rest) =
        some (rows, rest) := by
  intro rows
  induction rows with
  | nil => intro rest _ _; rfl
  | cons row rows2 ih =>
    intro rest hlen hval
    have hnl : (10 : Nat) ∉ row.flatMap (fun px =>
        natToBytes px.R ++ [32] ++ natToBytes px.G ++ [32] ++ natToBytes px.B ++ [32]) := by
      intro hmem
      rw [List.mem_flatMap] at hmem
      obtain ⟨px, hpx, hmem2⟩ := hmem
      have hd : ∀ n : Nat, (10 : Nat) ∈ natToBytes n → False := by
        intro n hn
        have := (natToBytes_ok n).2 10 hn
        omega
      simp only [List.append_assoc, List.mem_append, List.mem_singleton] at hmem2
      rcases hmem2 with h1 | h1
      · exact hd px.R h1
      rcases h1 with h1 | h1
      · omega
      rcases h1 with h1 | h1
      · exact hd px.G h1
      rcases h1 with h1 | h1
      · omega
      rcases h1 with h1 | h1
      · exact hd px.B h1
      · omega
    show readP3Rows (rows2.length + 1) w _ = _
    rw [readP3Rows_succ]
    rw [show (row :: rows2).flatMap (fun r => r.flatMap (fun px =>
        natToBytes px.R ++ [32] ++ natToBytes px.G ++ [32] ++ natToBytes px.B ++ [32]) ++ [10]) ++
        rest =
      row.flatMap (fun px =>
        natToBytes px.R ++ [32] ++ natToBytes px.G ++ [32] ++ natToBytes px.B ++ [32]) ++ 10 ::
        (rows2.flatMap (fun r => r.flatMap (fun px =>
          natToBytes px.R ++ [32] ++ natToBytes px.G ++ [32] ++ natToBytes px.B ++ [32]) ++
          [10]) ++ rest) from by simp]
    rw [readLine_append _ _ hnl, Option.some_bind]
    dsimp only
    rw [fieldsGo_p3Pixels row]
    have hrow := readP3Pixels_enc row (hval row (by simp))
    rw [hlen row (by simp)] at hrow
    rw [hrow, Option.some_bind]
    rw [ih rest (fun r hr => hlen r (by simp [hr])) (fun r hr => hval r (by simp [hr]))]
    rfl

/-- Raw byte triples regroup into the original pixels. -/
theorem bytesToPixels_flat :
    ∀ row : List Pixel, bytesToPixels (row.flatMap (fun px => [px.R, px.G, px.B])) = row := by
  intro row
  induction row with
  | nil => rfl
  | cons px t ih =>
    rw [show (px :: t).flatMap (fun px => [px.R, px.G, px.B]) =
      px.R :: px.G :: px.B :: t.flatMap (fun px => [px.R, px.G, px.B]) from by simp]
    show (⟨px.R, px.G, px.B⟩ : Pixel) :: bytesToPixels (t.flatMap fun px => [px.R, px.G, px.B]) =
      px :: t
    rw [ih]

/-- One-step unfolding of `readP6Rows` in explicit `Option.bind` form. -/
theorem readP6Rows_succ (h w : Nat) (s : List Nat) :
    readP6Rows (h + 1) w s =
      if s.length = 0 ∧ 0 < 3 * w then none
      else (readP6Rows h w (s.drop (3 * w))).bind fun rr =>
        some (bytesToPixels (s.take (3 * w) ++
          List.replicate (3 * w - min (3 * w) s.length) 0) :: rr.1, rr.2) := rfl

/-- Reading back all raw P6 rows. -/
theorem readP6Rows_enc (w : Nat) :
    ∀ (rows : List (List Pixel)) (rest : List Nat), (∀ r ∈ rows, r.length = w) →
      readP6Rows rows.length w
          (rows.flatMap (fun row => row.flatMap (fun px => [px.R, px.G, px.B])) ++ rest) =
        some (rows, rest) := by
  intro rows
  induction rows with
  | nil => intro rest _; rfl
  | cons row rows2 ih =>
    intro rest hlen
    have hrw : (row.flatMap (fun px => [px.R, px.G, px.B])).length = 3 * w := by
      have h3 : ∀ l : List Pixel, (l.flatMap (fun px => [px.R, px.G, px.B])).length =
          3 * l.length := by
        intro l
        induction l with
        | nil => rfl
        | cons a tl iht =>
          simp only [List.flatMap_cons, List.length_append, iht, List.length_cons,
            List.length_nil]
          omega
      rw [h3, hlen row (by simp)]
    show readP6Rows (rows2.length + 1) w _ = _
    rw [readP6Rows_succ]
    rw [show (row :: rows2).flatMap (fun r => r.flatMap (fun px => [px.R, px.G, px.B])) ++ rest =
      row.flatMap (fun px => [px.R, px.G, px.B]) ++
        (rows2.flatMap (fun r => r.flatMap (fun px => [px.R, px.G, px.B])) ++ rest) from by simp]
    have hslen : 3 * w ≤ (row.flatMap (fun px => [px.R, px.G, px.B]) ++
        (rows2.flatMap (fun r => r.flatMap (fun px => [px.R, px.G, px.B])) ++ rest)).length := by
      rw [List.length_append, hrw]; omega
    rw [if_neg (by
      rintro ⟨h0, hpos⟩
      rw [h0] at hslen
      omega)]
    rw [show (row.flatMap (fun px => [px.R, px.G, px.B]) ++
        (rows2.flatMap (fun r => r.flatMap (fun px => [px.R, px.G, px.B])) ++ rest)).drop (3 * w) =
      rows2.flatMap (fun r => r.flatMap (fun px => [px.R, px.G, px.B])) ++ rest from by
        rw [← hrw, List.drop_left]]
    rw [ih rest (fun r hr => hlen r (by simp [hr]))]
    rw [Option.some_bind]
    rw [show min (3 * w) (row.flatMap (fun px => [px.R, px.G, px.B]) ++
        (rows2.flatMap (fun r => r.flatMap (fun px => [px.R, px.G, px.B])) ++ rest)).length =
      3 * w from by omega]
    rw [Nat.sub_self, List.replicate_zero, List.append_nil]
    rw [show (row.flatMap (fun px => [px.R, px.G, px.B]) ++
        (rows2.flatMap (fun r => r.flatMap (fun px => [px.R, px.G, px.B])) ++ rest)).take (3 * w) =
      row.flatMap (fun px => [px.R, px.G, px.B]) from by rw [← hrw, List.take_left]]
    rw [bytesToPixels_flat]

/-! ## Header assembly for the round-trip -/

/-- A nonnegative `int` renders without a sign. -/
theorem intToBytes_nonneg (w : Int) (hw : 0 ≤ w) : intToBytes w = natToBytes w.toNat := by
  unfold intToBytes
  rw [if_neg (by omega)]

/-- The rendering of a nonnegative `int` is a nonempty digit string. -/
theorem intToBytes_digits (w : Int) (hw : 0 ≤ w) :
    intToBytes w ≠ [] ∧ ∀ b ∈ intToBytes w, 48 ≤ b ∧ b ≤ 57 := by
  rw [intToBytes_nonneg w hw]
  exact natToBytes_ok w.toNat

/-- The last element of a nonempty list is a member, whatever the default. -/
theorem getLastD_mem {α : Type} : ∀ (l : List α), l ≠ [] → ∀ d : α, l.getLastD d ∈ l
  | [a], _, _ => by simp
  | a :: b :: t, _, d => by
    rw [List.getLastD_cons]
    exact List.mem_cons_of_mem a (getLastD_mem (b :: t) (by simp) a)

/-- `strings.TrimSpace` of an all-digit token plus its newline. -/
theorem trimSpace_digits (xs : List Nat) (hne : xs ≠ [])
    (hdig : ∀ b ∈ xs, 48 ≤ b ∧ b ≤ 57) : trimSpace (xs ++ [10]) = xs := by
  apply trimSpace_clean xs hne
  · cases xs with
    | nil => exact absurd rfl hne
    | cons a t => exact digit_not_space a (hdig a (List.mem_cons_self a t))
  · exact digit_not_space _ (hdig _ (getLastD_mem xs hne 0))

/-- `strings.TrimSpace` of an encoded `"%d %d"` line plus its newline. -/
theorem trimSpace_dims (w h : Int) (hw : 0 ≤ w) (hh : 0 ≤ h) :
    trimSpace ((intToBytes w ++ 32 :: intToBytes h) ++ [10]) =
      intToBytes w ++ 32 :: intToBytes h := by
  obtain ⟨hwne, hwdig⟩ := intToBytes_digits w hw
  obtain ⟨hhne, hhdig⟩ := intToBytes_digits h hh
  apply trimSpace_clean _ (by simp)
  · cases hc : intToBytes w with
    | nil => exact absurd hc hwne
    | cons a t =>
      exact digit_not_space a (hwdig a (by rw [hc]; exact List.mem_cons_self a t))
  · rw [getLastD_append_right _ (32 :: intToBytes h) (by simp) 0, List.getLastD_cons,
      getLastD_ne_nil _ hhne 32 0]
    exact digit_not_space _ (hhdig _ (getLastD_mem _ hhne 0))

/-- The newline never occurs in an encoded `"%d %d"` core. -/
theorem dims_no_newline (w h : Int) (hw : 0 ≤ w) (hh : 0 ≤ h) :
    (10 : Nat) ∉ intToBytes w ++ 32 :: intToBytes h := by
  obtain ⟨_, hwdig⟩ := intToBytes_digits w hw
  obtain ⟨_, hhdig⟩ := intToBytes_digits h hh
  intro hmem
  rcases List.mem_append.mp hmem with h1 | h1
  · have := hwdig 10 h1; omega
  · rcases List.mem_cons.mp h1 with h2 | h2
    · omega
    · have := hhdig 10 h2; omega

/-- `fmt.Sscanf(.., "%d %d")` on an encoded `"%d %d"` core. -/
theorem scanTwoInts_enc (w h : Int) (hw : 0 ≤ w) (hh : 0 ≤ h) :
    scanTwoInts (intToBytes w ++ 32 :: intToBytes h) = some (w, h) := by
  obtain ⟨hwne, hwdig⟩ := intToBytes_digits w hw
  obtain ⟨hhne, hhdig⟩ := intToBytes_digits h hh
  unfold scanTwoInts
  rw [fieldsGo_token _ hwne (fun b hb => digit_not_space b (hwdig b hb)) 32 rfl _]
  rw [fieldsGo_last _ hhne (fun b hb => digit_not_space b (hhdig b hb))]
  dsimp only
  simp only [Option.bind_eq_bind]
  rw [parseInt_intToBytes w hw, Option.some_bind, parseInt_intToBytes h hh, Option.some_bind]

/-- `fmt.Sscanf(.., "%d")` on an encoded max-value token. -/
theorem scanOneInt_enc (n : Nat) : scanOneInt (natToBytes n) = some (n : Int) := by
  obtain ⟨hne, hdig⟩ := natToBytes_ok n
  unfold scanOneInt
  rw [fieldsGo_last _ hne (fun b hb => digit_not_space b (hdig b hb))]
  exact parseInt_natToBytes n

/-- One-step unfolding of `readDimsLoop` in explicit `Option.bind` form. -/
theorem readDimsLoop_succ (fuel : Nat) (s : List Nat) :
    readDimsLoop (fuel + 1) s =
      (readLine s).bind fun pr =>
        if pr.1.headD 0 = 35 then readDimsLoop fuel pr.2
        else
          match fieldsGo pr.1 with
          | [a, b] =>
            (parseInt a).bind fun w => (parseInt b).bind fun h => some (w, h, pr.2)
          | _ => readDimsLoop fuel pr.2 := rfl

/-- The dimensions loop of `ReadPBM` on an encoded `"%d %d\n"` line. -/
theorem readDimsLoop_enc (w h : Int) (hw : 0 ≤ w) (hh : 0 ≤ h) (fuel : Nat)
    (rest : List Nat) :
    readDimsLoop (fuel + 1) ((intToBytes w ++ 32 :: intToBytes h) ++ 10 :: rest) =
      some (w, h, rest) := by
  obtain ⟨hwne, hwdig⟩ := intToBytes_digits w hw
  obtain ⟨hhne, hhdig⟩ := intToBytes_digits h hh
  rw [readDimsLoop_succ, readLine_append _ _ (dims_no_newline w h hw hh), Option.some_bind]
  dsimp only
  obtain ⟨a, t, hcons⟩ : ∃ a t, intToBytes w = a :: t := by
    cases hc : intToBytes w with
    | nil => exact absurd hc hwne
    | cons a t => exact ⟨a, t, rfl⟩
  have ha : 48 ≤ a ∧ a ≤ 57 := hwdig a (by rw [hcons]; exact List.mem_cons_self a t)
  have hhead : ((intToBytes w ++ 32 :: intToBytes h) ++ [10]).headD 0 = a := by
    rw [hcons]
    rfl
  rw [hhead, if_neg (by omega)]
  rw [show (intToBytes w ++ 32 :: intToBytes h) ++ [10] =
    intToBytes w ++ 32 :: (intToBytes h ++ [10]) from by simp]
  rw [fieldsGo_token _ hwne (fun b hb => digit_not_space b (hwdig b hb)) 32 rfl _]
  rw [fieldsGo_token _ hhne (fun b hb => digit_not_space b (hhdig b hb)) 10 rfl _]
  rw [show fieldsGo ([] : List Nat) = [] from rfl]
  dsimp only
  rw [parseInt_intToBytes w hw, Option.some_bind, parseInt_intToBytes h hh, Option.some_bind]

/-- P1 round-trip: `ReadPBM` recovers any valid P1 bitmap from its `Save`. -/
theorem readPBM_save_p1 (m : PBM) (hv : m.valid) (hm : m.magicNumber = magicP1) :
    readPBM m.save = some m := by
  obtain ⟨data, w, h, magic⟩ := m
  obtain ⟨hw, hh, hcnt, hlen⟩ := hv
  dsimp only at hw hh hcnt hlen hm
  subst hm
  rw [show (PBM.mk data w h magicP1).save =
    magicP1 ++ 10 :: ((intToBytes w ++ 32 :: intToBytes h) ++ 10 ::
      data.flatMap (fun row => row.flatMap p1PixelBytes ++ [10])) from by
    unfold PBM.save
    dsimp only
    rw [if_pos rfl]
    simp]
  unfold readPBM
  simp only [Option.bind_eq_bind]
  rw [readLine_append magicP1 _ (by decide), Option.some_bind]
  dsimp only
  rw [show trimSpace (magicP1 ++ [10]) = magicP1 from by decide]
  rw [readDimsLoop_enc w h (by omega) (by omega), Option.some_bind]
  dsimp only
  rw [show allocGrid w h = some () from by
    unfold allocGrid
    rw [if_neg (by omega), if_neg (by omega)]]
  rw [Option.some_bind, if_pos rfl]
  obtain ⟨left, hrows⟩ := readP1Rows_enc w.toNat (by omega) data [] []
    (by intro b hb; simp at hb) hlen
  simp only [List.nil_append, List.append_nil] at hrows
  rw [show h.toNat = data.length from hcnt.symm, hrows, Option.some_bind]

/-- P4 round-trip: `ReadPBM` recovers any valid P4 bitmap from its `Save`. -/
theorem readPBM_save_p4 (m : PBM) (hv : m.valid) (hm : m.magicNumber = magicP4) :
    readPBM m.save = some m := by
  obtain ⟨data, w, h, magic⟩ := m
  obtain ⟨hw, hh, hcnt, hlen⟩ := hv
  dsimp only at hw hh hcnt hlen hm
  subst hm
  rw [show (PBM.mk data w h magicP4).save =
    magicP4 ++ 10 :: ((intToBytes w ++ 32 :: intToBytes h) ++ 10 ::
      data.flatMap packRow) from by
    unfold PBM.save
    dsimp only
    rw [if_neg (by decide), if_pos rfl]
    simp]
  unfold readPBM
  simp only [Option.bind_eq_bind]
  rw [readLine_append magicP4 _ (by decide), Option.some_bind]
  dsimp only
  rw [show trimSpace (magicP4 ++ [10]) = magicP4 from by decide]
  rw [readDimsLoop_enc w h (by omega) (by omega), Option.some_bind]
  dsimp only
  rw [show allocGrid w h = some () from by
    unfold allocGrid
    rw [if_neg (by omega), if_neg (by omega)]]
  rw [Option.some_bind, if_neg (by decide), if_pos rfl]
  have hrows := readP4Rows_enc w.toNat data [] hlen
  simp only [List.append_nil] at hrows
  rw [show h.toNat = data.length from hcnt.symm, hrows, Option.some_bind]

/-- P2 round-trip: `ReadPGM` recovers any valid P2 graymap from its `Save`. -/
theorem readPGM_save_p2 (g : PGM) (hv : g.valid) (hm : g.magicNumber = magicP2) :
    readPGM g.save = some g := by
  obtain ⟨data, w, h, magic, mx⟩ := g
  obtain ⟨hw, hh, ⟨hcnt, hlen⟩, hmx, hval⟩ := hv
  dsimp only at hw hh hcnt hlen hmx hval hm
  subst hm
  rw [show (PGM.mk data w h magicP2 mx).save =
    magicP2 ++ 10 :: ((intToBytes w ++ 32 :: intToBytes h) ++ 10 ::
      (natToBytes mx ++ 10 ::
        data.flatMap (fun row => joinSpace (row.map natToBytes) ++ [10]))) from by
    unfold PGM.save
    dsimp only
    rw [if_pos rfl]
    simp]
  unfold readPGM
  simp only [Option.bind_eq_bind]
  rw [readLine_append magicP2 _ (by decide), Option.some_bind]
  dsimp only
  rw [show trimSpace (magicP2 ++ [10]) = magicP2 from by decide]
  rw [if_pos (Or.inl rfl)]
  rw [readLine_append _ _ (dims_no_newline w h (by omega) (by omega)), Option.some_bind]
  dsimp only
  rw [trimSpace_dims w h (by omega) (by omega)]
  rw [scanTwoInts_enc w h (by omega) (by omega), Option.some_bind]
  dsimp only
  rw [if_neg (by omega)]
  rw [readLine_append (natToBytes mx) _ (by
    intro hmem
    have := (natToBytes_ok mx).2 10 hmem
    omega), Option.some_bind]
  dsimp only
  rw [trimSpace_digits (natToBytes mx) (natToBytes_ok mx).1 (natToBytes_ok mx).2]
  rw [scanOneInt_enc mx, Option.some_bind]
  rw [show allocGrid w h = some () from by
    unfold allocGrid
    rw [if_neg (by omega), if_neg (by omega)]]
  rw [Option.some_bind, if_pos rfl]
  have hrows := readP2Rows_enc w.toNat (by omega) data [] hlen hval
  simp only [List.append_nil] at hrows
  rw [show h.toNat = data.length from hcnt.symm, hrows, Option.some_bind]
  rw [toUInt8_id mx hmx]

/-- P5 round-trip: `ReadPGM` recovers any valid P5 graymap from its `Save`. -/
theorem readPGM_save_p5 (g : PGM) (hv : g.valid) (hm : g.magicNumber = magicP5) :
    readPGM g.save = some g := by
  obtain ⟨data, w, h, magic, mx⟩ := g
  obtain ⟨hw, hh, ⟨hcnt, hlen⟩, hmx, hval⟩ := hv
  dsimp only at hw hh hcnt hlen hmx hval hm
  subst hm
  rw [show (PGM.mk data w h magicP5 mx).save =
    magicP5 ++ 10 :: ((intToBytes w ++ 32 :: intToBytes h) ++ 10 ::
      (natToBytes mx ++ 10 :: data.flatMap (fun row => row))) from by
    unfold PGM.save
    dsimp only
    rw [if_neg (by decide), if_pos rfl]
    simp]
  unfold readPGM
  simp only [Option.bind_eq_bind]
  rw [readLine_append magicP5 _ (by decide), Option.some_bind]
  dsimp only
  rw [show trimSpace (magicP5 ++ [10]) = magicP5 from by decide]
  rw [if_pos (Or.inr rfl)]
  rw [readLine_append _ _ (dims_no_newline w h (by omega) (by omega)), Option.some_bind]
  dsimp only
  rw [trimSpace_dims w h (by omega) (by omega)]
  rw [scanTwoInts_enc w h (by omega) (by omega), Option.some_bind]
  dsimp only
  rw [if_neg (by omega)]
  rw [readLine_append (natToBytes mx) _ (by
    intro hmem
    have := (natToBytes_ok mx).2 10 hmem
    omega), Option.some_bind]
  dsimp only
  rw [trimSpace_digits (natToBytes mx) (natToBytes_ok mx).1 (natToBytes_ok mx).2]
  rw [scanOneInt_enc mx, Option.some_bind]
  rw [show allocGrid w h = some () from by
    unfold allocGrid
    rw [if_neg (by omega), if_neg (by omega)]]
  rw [Option.some_bind, if_neg (by decide)]
  have hrows := readP5Rows_enc w.toNat data [] hlen
  simp only [List.append_nil] at hrows
  rw [show h.toNat = data.length from hcnt.symm, hrows, Option.some_bind]
  rw [toUInt8_id mx hmx]

/-- P3 round-trip: `ReadPPM` recovers any valid P3 pixmap from its `Save`. -/
theorem readPPM_save_p3 (p : PPM) (hv : p.valid) (hm : p.magicNumber = magicP3) :
    p.save.bind readPPM = some p := by
  obtain ⟨data, w, h, magic, mx⟩ := p
  obtain ⟨hw, hh, ⟨hcnt, hlen⟩, hmx, hval⟩ := hv
  dsimp only at hw hh hcnt hlen hmx hval hm
  subst hm
  rw [show (PPM.mk data w h magicP3 mx).save = some
    (magicP3 ++ 10 :: ((intToBytes w ++ 32 :: intToBytes h) ++ 10 ::
      (natToBytes mx ++ 10 ::
        data.flatMap (fun row => row.flatMap (fun px =>
          natToBytes px.R ++ [32] ++ natToBytes px.G ++ [32] ++ natToBytes px.B ++ [32]) ++
          [10])))) from by
    unfold PPM.save
    dsimp only
    rw [if_pos (Or.inl rfl), if_neg (by decide)]
    simp]
  rw [Option.some_bind]
  unfold readPPM
  simp only [Option.bind_eq_bind]
  rw [readLine_append magicP3 _ (by decide), Option.some_bind]
  dsimp only
  rw [show trimSpace (magicP3 ++ [10]) = magicP3 from by decide]
  rw [if_pos (Or.inl rfl)]
  rw [readLine_append _ _ (dims_no_newline w h (by omega) (by omega)), Option.some_bind]
  dsimp only
  rw [trimSpace_dims w h (by omega) (by omega)]
  rw [scanTwoInts_enc w h (by omega) (by omega), Option.some_bind]
  dsimp only
  rw [readLine_append (natToBytes mx) _ (by
    intro hmem
    have := (natToBytes_ok mx).2 10 hmem
    omega), Option.some_bind]
  dsimp only
  rw [trimSpace_digits (natToBytes mx) (natToBytes_ok mx).1 (natToBytes_ok mx).2]
  rw [scanOneInt_enc mx, Option.some_bind]
  rw [show allocGrid w h = some () from by
    unfold allocGrid
    rw [if_neg (by omega), if_neg (by omega)]]
  rw [Option.some_bind, if_pos rfl]
  have hrows := readP3Rows_enc w.toNat data [] hlen hval
  simp only [List.append_nil] at hrows
  rw [show h.toNat = data.length from hcnt.symm, hrows, Option.some_bind]
  rw [toUInt8_id mx hmx]

/-- P6 round-trip: `ReadPPM` recovers any valid P6 pixmap from its `Save`. -/
theorem readPPM_save_p6 (p : PPM) (hv : p.valid) (hm : p.magicNumber = magicP6) :
    p.save.bind readPPM = some p := by
  obtain ⟨data, w, h, magic, mx⟩ := p
  obtain ⟨hw, hh, ⟨hcnt, hlen⟩, hmx, hval⟩ := hv
  dsimp only at hw hh hcnt hlen hmx hval hm
  subst hm
  rw [show (PPM.mk data w h magicP6 mx).save = some
    (magicP6 ++ 10 :: ((intToBytes w ++ 32 :: intToBytes h) ++ 10 ::
      (natToBytes mx ++ 10 ::
        data.flatMap (fun row => row.flatMap (fun px => [px.R, px.G, px.B]))))) from by
    unfold PPM.save
    dsimp only
    rw [if_pos (Or.inr rfl), if_pos rfl]
    simp]
  rw [Option.some_bind]
  unfold readPPM
  simp only [Option.bind_eq_bind]
  rw [readLine_append magicP6 _ (by decide), Option.some_bind]
  dsimp only
  rw [show trimSpace (magicP6 ++ [10]) = magicP6 from by decide]
  rw [if_pos (Or.inr rfl)]
  rw [readLine_append _ _ (dims_no_newline w h (by omega) (by omega)), Option.some_bind]
  dsimp only
  rw [trimSpace_dims w h (by omega) (by omega)]
  rw [scanTwoInts_enc w h (by omega) (by omega), Option.some_bind]
  dsimp only
  rw [readLine_append (natToBytes mx) _ (by
    intro hmem
    have := (natToBytes_ok mx).2 10 hmem
    omega), Option.some_bind]
  dsimp only
  rw [trimSpace_digits (natToBytes mx) (natToBytes_ok mx).1 (natToBytes_ok mx).2]
  rw [scanOneInt_enc mx, Option.some_bind]
  rw [show allocGrid w h = some () from by
    unfold allocGrid
    rw [if_neg (by omega), if_neg (by omega)]]
  rw [Option.some_bind, if_neg (by decide)]
  have hrows := readP6Rows_enc w.toNat data [] hlen
  simp only [List.append_nil] at hrows
  rw [show h.toNat = data.length from hcnt.symm, hrows, Option.some_bind]
  rw [toUInt8_id mx hmx]

/-- C1: For every format (P1/P4 bitmaps via `ReadPBM`/`PBM.Save`, P2/P5
graymaps via `ReadPGM`/`PGM.Save`, P3/P6 pixmaps via `ReadPPM`/`PPM.Save`)
and every image built by direct construction with positive dimensions, a
dense grid and in-range sample values, decoding the bytes produced by
encoding that image yields an image equal to the original, sample-exact
and including the max value. -/
theorem C1_encode_decode_roundtrip :
    (∀ m : PBM, m.valid → m.magicNumber = magicP1 ∨ m.magicNumber = magicP4 →
      readPBM m.save = some m) ∧
    (∀ g : PGM, g.valid → g.magicNumber = magicP2 ∨ g.magicNumber = magicP5 →
      readPGM g.save = some g) ∧
    (∀ p : PPM, p.valid → p.magicNumber = magicP3 ∨ p.magicNumber = magicP6 →
      p.save.bind readPPM = some p) := by
  refine ⟨fun m hv hm => ?_, fun g hv hm => ?_, fun p hv hm => ?_⟩
  · rcases hm with hm | hm
    · exact readPBM_save_p1 m hv hm
    · exact readPBM_save_p4 m hv hm
  · rcases hm with hm | hm
    · exact readPGM_save_p2 g hv hm
    · exact readPGM_save_p5 g hv hm
  · rcases hm with hm | hm
    · exact readPPM_save_p3 p hv hm
    · exact readPPM_save_p6 p hv hm

/-- C1 witness: the round-trip at one concrete image per format. -/
theorem C1_encode_decode_roundtrip_witness :
    readPBM pbmExP1.save = some pbmExP1 ∧ readPBM pbmExP4.save = some pbmExP4 ∧
    readPGM pgmExP2.save = some pgmExP2 ∧ readPGM pgmExP5.save = some pgmExP5 ∧
    ppmExP3.save.bind readPPM = some ppmExP3 ∧ ppmExP6.save.bind readPPM = some ppmExP6 :=
  ⟨C1_encode_decode_roundtrip.1 pbmExP1 (by decide) (Or.inl (by decide)),
   C1_encode_decode_roundtrip.1 pbmExP4 (by decide) (Or.inr (by decide)),
   C1_encode_decode_roundtrip.2.1 pgmExP2 (by decide) (Or.inl (by decide)),
   C1_encode_decode_roundtrip.2.1 pgmExP5 (by decide) (Or.inr (by decide)),
   C1_encode_decode_roundtrip.2.2 ppmExP3 (by decide) (Or.inl (by decide)),
   C1_encode_decode_roundtrip.2.2 ppmExP6 (by decide) (Or.inr (by decide))⟩

end Netpbm
